import Mathlib

/-!
# Vigenère cipher tools: encoder, stream cipher and Kasiski analysis

A shallow embedding of the three C programs of the repository

* `vigenere.c`  (namespace `Vigenere`): the stream encoder / decoder,
* `encode.c`    (namespace `Encode`): the in-place string encoder,
* `kasiski.c`   (namespace `Kasiski`): key-length estimation and key recovery,

followed by theorems about them.

Conventions of the embedding.

* A C character is its integer code (`Int`); a C string is the list of the
  characters before its terminating NUL.
* C's `%` on `int` truncates towards zero: it is `Int.tmod`.
* A call of `exit` is an explicit outcome of the function that reaches it.
-/

/-! ## Definitions -/

/-- Character codes of a string literal. -/
def str (s : String) : List Int := s.toList.map (fun c => (c.toNat : Int))

namespace Vigenere

/-- The constant `ALPHASIZE` of vigenere.c. -/
def ALPHASIZE : Int := 26

/-- The function `alphaxor(ch, add, res)` of vigenere.c.  The first component is the
return value (the alphabet position of the result, `-1` when `ch` is no letter), the
second is the value left in `*res`. -/
def alphaxor (ch add : Int) : Int × Int :=
  if 65 ≤ ch ∧ ch ≤ 90 then
    let c := Int.tmod (ch - 65 + add) ALPHASIZE
    let c := if c < 0 then c + ALPHASIZE else c
    (c, 65 + c)
  else if 97 ≤ ch ∧ ch ≤ 122 then
    let c := Int.tmod (ch - 97 + add) ALPHASIZE
    let c := if c < 0 then c + ALPHASIZE else c
    (c, 97 + c)
  else
    (-1, ch)

/-- First loop of `encrypt`: the key is overwritten in place by the alphabet
positions of its letters; what is returned is `key[0 .. keylen)`. -/
def keyPositions : List Int → List Int
  | [] => []
  | c :: rest =>
    if (alphaxor c 0).1 ≠ -1 then (alphaxor c 0).1 :: keyPositions rest
    else keyPositions rest

/-- The step `if (keylen == 0) key[keylen++] = 0;` of `encrypt`. -/
def trivialKey (key : List Int) : List Int :=
  if key.length = 0 then [0] else key

/-- The `getchar` / `putchar` loop of `encrypt`: `i` is the key cursor, the list
argument is what is left on standard input, the result is what is written. -/
def encryptLoop (key : List Int) (prod : Int) : Nat → List Int → List Int
  | _, [] => []
  | i, ch :: rest =>
    let r := alphaxor ch (prod * key.getD i 0)
    r.2 :: encryptLoop key prod (if r.1 ≠ -1 then (i + 1) % key.length else i) rest

/-- The function `encrypt(key, prod)` of vigenere.c on the standard input `input`;
`prod = 1` encodes and `prod = -1` decodes. -/
def encrypt (key : List Int) (prod : Int) (input : List Int) : List Int :=
  encryptLoop (trivialKey (keyPositions key)) prod 0 input

/-- A letter of either case. -/
def isLetter (c : Int) : Prop := (65 ≤ c ∧ c ≤ 90) ∨ (97 ≤ c ∧ c ≤ 122)

instance (c : Int) : Decidable (isLetter c) := by unfold isLetter; infer_instance

end Vigenere

namespace Encode

/-- The test `isalpha` of ctype.h, in the "C" locale (encode.c never changes the
locale): the 52 ASCII letters. -/
def isalpha (c : Int) : Bool :=
  (decide (65 ≤ c) && decide (c ≤ 90)) || (decide (97 ≤ c) && decide (c ≤ 122))

/-- The test `isupper` of ctype.h in the "C" locale. -/
def isupper (c : Int) : Bool := decide (65 ≤ c) && decide (c ≤ 90)

/-- The test `islower` of ctype.h in the "C" locale. -/
def islower (c : Int) : Bool := decide (97 ≤ c) && decide (c ≤ 122)

/-- The function `toupper` of ctype.h in the "C" locale. -/
def toupper (c : Int) : Int := if 97 ≤ c ∧ c ≤ 122 then c - 32 else c

/-- How a call of `encodeVigenere` ends: it returns, it calls `exit(EXIT_FAILURE)` after
the message "Key must contain only alphabetic characters", or it evaluates
`j % keyLength` with `keyLength == 0`. -/
inductive Status where
  | success
  | invalidKey
  | divisionByZero
  deriving DecidableEq, Repr

/-- The end of a call of `encodeVigenere`: how it ended and the contents of the
`text` buffer at that moment. -/
structure Exit where
  status : Status
  text : List Int
  deriving DecidableEq, Repr

/-- First loop of `encodeVigenere` (lines 62-68): every key character is tested with
`isalpha` and replaced by its upper case; `none` is the call of `exit` at the first
character that is no letter. -/
def checkKey : List Int → Option (List Int)
  | [] => some []
  | c :: rest =>
    if !isalpha c then none
    else (checkKey rest).map (fun r => toupper c :: r)

/-- Second loop of `encodeVigenere` (lines 70-78) over the rest of the text, `j` being
the key cursor.  `none` is the evaluation of `j % keyLength` with `keyLength == 0`. -/
def encodeLoop (key : List Int) (keyLength : Nat) : Nat → List Int → Option (List Int)
  | _, [] => some []
  | j, c :: rest =>
    if !isalpha c then
      (encodeLoop key keyLength j rest).map (fun r => c :: r)
    else if keyLength = 0 then none
    else
      let base : Int := if isupper c then 65 else 97
      let shift : Int := key.getD (j % keyLength) 0 - 65
      (encodeLoop key keyLength (j + 1) rest).map
        (fun r => (Int.tmod (c - base + shift) 26 + base) :: r)

/-- The function `encodeVigenere(text, key)` of encode.c.  When the second loop stops
at a division by zero no character has been written yet (every character before the
first letter is skipped by `continue`), so the buffer is still `text`. -/
def encodeVigenere (text key : List Int) : Exit :=
  match checkKey key with
  | none => ⟨Status.invalidKey, text⟩
  | some K =>
    match encodeLoop K key.length 0 text with
    | none => ⟨Status.divisionByZero, text⟩
    | some out => ⟨Status.success, out⟩

/-- Alphabet position of a letter, ignoring case: A/a = 0, ..., Z/z = 25. -/
def pos (c : Int) : Int := if 65 ≤ c ∧ c ≤ 90 then c - 65 else c - 97

/-- What the second loop writes at a position holding `c` when the key character
under the cursor is `k`. -/
def encChar (c k : Int) : Int :=
  if isalpha c then
    Int.tmod (c - (if isupper c then 65 else 97) + (k - 65)) 26 + (if isupper c then 65 else 97)
  else c

end Encode

namespace Kasiski

/-- The constant `THRESHOLD` of kasiski.c (0.5). -/
def THRESHOLD : ℚ := 1 / 2

/-- The constant `ALPHASIZE` of kasiski.c. -/
def ALPHASIZE : Nat := 26

/-- The constant `HASHSIZE` of kasiski.c. -/
def HASHSIZE : Nat := ALPHASIZE * ALPHASIZE * ALPHASIZE

/-- The constant `TRIGRAPHSIZE` of kasiski.c. -/
def TRIGRAPHSIZE : Nat := 3

/-- The macro `CTOI(c)` of kasiski.c. -/
def CTOI (c : Int) : Int := if 65 ≤ c ∧ c ≤ 90 then c - 65 else c - 97

/-- The ways a run of kasiski stops without a key: the two calls of `err` that the
analysis can reach, and the read of `primes[NPRIMES]`, one element past the end of the
prime table, after which the behaviour of the C program is undefined. -/
inductive Fault where
  | couldNotRead
  | bigNumber
  | pastTable
  deriving DecidableEq, Repr

/-- One node of the list of prime factors (`struct Factor`); `idx` is the index `i`
for which `factors[i]` points to the node. -/
structure Factor where
  idx : Nat
  val : Nat
  nrep : Nat
  nall : Nat
  deriving DecidableEq, Repr

/-- One node of the list of trigrams (`struct Trigram`): the three characters, the list
`rep` of recorded distances (newest first) and `lastpos`. -/
structure Trigram where
  trig : Int × Int × Int
  rep : List Nat
  lastpos : Nat
  deriving DecidableEq, Repr

/-- The table `freqen` of kasiski.c. -/
def freqen : List ℚ :=
  [0.08200, 0.01500, 0.02800, 0.04300, 0.13000, 0.02200, 0.02000, 0.06100, 0.07000,
   0.00150, 0.00770, 0.04000, 0.02400, 0.06700, 0.07500, 0.01900, 0.00095, 0.06000,
   0.06300, 0.09100, 0.02800, 0.00980, 0.02400, 0.00150, 0.02000, 0.00074]

/-- The function `isalpha` that kasiski.c defines for itself. -/
def isalpha (c : Int) : Bool :=
  (decide (65 ≤ c) && decide (c ≤ 90)) || (decide (97 ≤ c) && decide (c ≤ 122))

/-- The loops of `readstdin` over the bytes of standard input, one byte at a time.
`n` is the number of bytes that the current call of `fgets` has already put into `buf`
(a call takes at most `DEFSIZE - 1 = 1023` bytes and ends after a newline); `cut` tells
that one of them was a NUL byte, at which the filter loop `buf[i] != 0` stops, so that
the rest of this buffer is dropped.  The result is the message `msg`. -/
def readLoop : Nat → Bool → List Int → List Int
  | _, _, [] => []
  | n, cut, b :: rest =>
    let n0 := if n = 1023 then 0 else n
    let cut0 := if n = 1023 then false else cut
    let cut1 := cut0 || decide (b = 0)
    let n1 := if b = 10 then 0 else n0 + 1
    let cut2 := if b = 10 then false else cut1
    if !cut1 && isalpha b then b :: readLoop n1 cut2 rest
    else readLoop n1 cut2 rest

/-- The function `readstdin()` of kasiski.c on a readable standard input holding the
bytes `input`: `msg` stays `NULL`, and `err` is called, exactly when the first `fgets`
already meets the end of the input. -/
def readstdin (input : List Int) : Except Fault (List Int) :=
  match input with
  | [] => Except.error Fault.couldNotRead
  | _ :: _ => Except.ok (readLoop 0 false input)

/-- The function `trigtohash(cp)` of kasiski.c; the `int` value is returned as
`unsigned int`. -/
def trigtohash (cp : Int × Int × Int) : Nat :=
  ((CTOI cp.1 * 26 * 26 + CTOI cp.2.1 * 26 + CTOI cp.2.2) % 4294967296).toNat

/-- The function `inccount(tab, last, nreps, trig, n)` of kasiski.c.  The list `last` is
the linked list of trigrams, newest first; `tab[h]` is its node whose trigram hashes to
`h`, if there is one.  On a repetition the local `n` is first reduced by `lastpos`,
then stored both as the new distance and as the new `lastpos`.  (`lastpos` never
exceeds `n`, so the subtraction of `size_t` values does not wrap.) -/
def inccount (last : List Trigram) (nreps : Nat) (trig : Int × Int × Int) (n : Nat) :
    List Trigram × Nat :=
  if last.any (fun t => trigtohash t.trig == trigtohash trig) then
    (last.map (fun t =>
        if trigtohash t.trig == trigtohash trig then
          { t with rep := (n - t.lastpos) :: t.rep, lastpos := n - t.lastpos }
        else t),
      nreps + 1)
  else
    ({ trig := trig, rep := [], lastpos := n } :: last, nreps)

/-- The loop of `calctrigs` from position `i`, the list being `msg[i ..]`: a window of
three characters is counted when three characters are left. -/
def calctrigsLoop : Nat → List Int → List Trigram × Nat → List Trigram × Nat
  | _, [], st => st
  | i, c0 :: rest, st =>
    match rest with
    | c1 :: c2 :: _ => calctrigsLoop (i + 1) rest (inccount st.1 st.2 (c0, c1, c2) i)
    | _ => calctrigsLoop (i + 1) rest st

/-- The function `calctrigs(msg, &nreps)` of kasiski.c: the list of trigrams and the
number of repetitions. -/
def calctrigs (msg : List Int) : List Trigram × Nat :=
  calctrigsLoop 0 msg ([], 0)

/-- The loop `do ++nall; val /= p; while (val % p == 0)` of `factorise`; the result is
the number of rounds and the final `val`.  The first argument bounds the number of
rounds; `factorise` passes `val`, which is enough for every `p` of at least 2. -/
def divideOut (p : Nat) : Nat → Nat → Nat × Nat
  | 0, val => (0, val)
  | fuel + 1, val =>
    if (val / p) % p = 0 then ((divideOut p fuel (val / p)).1 + 1, (divideOut p fuel (val / p)).2)
    else (1, val / p)

/-- The statements of `factorise` between the two inner loops and the counting of the
second: the node `factors[i]` is created at the head of the list if absent, its `nrep`
grows by one and its `nall` by the number `m` of divisions.  `val` is a `uint16_t`. -/
def recordFactor (tally : List Factor) (i p m : Nat) : List Factor :=
  (if tally.any (fun f => f.idx == i) then tally
   else { idx := i, val := p % 65536, nrep := 0, nall := 0 } :: tally).map
    (fun f => if f.idx == i then { f with nrep := f.nrep + 1, nall := f.nall + m } else f)

/-- The loops of `factorise` from index `i`, the list being `primes[i ..]` (its end is
index `NPRIMES`).  `searching` is true inside the `do ... while (++i < NPRIMES)` loop
after a prime that does not divide `val`, false at the head of the `for` loop.

* End of the table while searching: `++i < NPRIMES` fails, and `err` is called.
* End of the table at the head of the `for` loop with `val > 1`: the body runs and
  reads `primes[NPRIMES]`.
* Otherwise `primes[i]` is read; if it divides `val` the factor is recorded and divided
  out, and the `for` loop goes on with `i + 1`. -/
def factoriseFrom : List Nat → Nat → Bool → List Factor → Nat → Except Fault (List Factor)
  | [], _, searching, tally, val =>
    if searching then Except.error Fault.bigNumber
    else if 1 < val then Except.error Fault.pastTable
    else Except.ok tally
  | p :: rest, i, searching, tally, val =>
    if !searching && decide (val ≤ 1) then Except.ok tally
    else if val % p = 0 then
      factoriseFrom rest (i + 1) false
        (recordFactor tally i p (divideOut p val val).1) (divideOut p val val).2
    else factoriseFrom rest (i + 1) true tally val

/-- The function `factorise(factors, &head, val)` of kasiski.c over the prime table
`primes` of primes.h (entries at least 2). -/
def factorise (primes : List Nat) (tally : List Factor) (val : Nat) :
    Except Fault (List Factor) :=
  if val = 0 ∨ val = 1 then Except.ok tally
  else factoriseFrom primes 0 false tally val

/-- The inner loop of `calcfactors`: the distances of one trigram are factorised, the
newest first. -/
def factoriseAll (primes : List Nat) : List Nat → List Factor → Except Fault (List Factor)
  | [], tally => Except.ok tally
  | g :: rest, tally =>
    match factorise primes tally g with
    | Except.error e => Except.error e
    | Except.ok tally1 => factoriseAll primes rest tally1

/-- The outer loop of `calcfactors` over the list of trigrams. -/
def calcfactorsLoop (primes : List Nat) :
    List Trigram → List Factor → Except Fault (List Factor)
  | [], tally => Except.ok tally
  | t :: rest, tally =>
    match factoriseAll primes t.rep tally with
    | Except.error e => Except.error e
    | Except.ok tally1 => calcfactorsLoop primes rest tally1

/-- The function `calcfactors(trigs)` of kasiski.c: the list of factors from `head`. -/
def calcfactors (primes : List Nat) (trigs : List Trigram) : Except Fault (List Factor) :=
  calcfactorsLoop primes trigs []

/-- The test `f->nrep / (double)nreps > THRESHOLD` of `calckeylen`.  The quotient of
the two counts is taken as the exact rational; a division of a positive count by
`0.0` is plus infinity, of zero by `0.0` not a number (every comparison false). -/
def aboveThreshold (nrep nreps : Nat) : Bool :=
  if nreps = 0 then decide (0 < nrep)
  else decide ((nrep : ℚ) / (nreps : ℚ) > THRESHOLD)

/-- The loop `while (k-- > 0) keylen *= f->val` of `calckeylen`, `keylen` being a
`uint32_t`. -/
def mulRepeat (val : Nat) : Nat → Nat → Nat
  | 0, keylen => keylen
  | k + 1, keylen => mulRepeat val k ((keylen * val) % 4294967296)

/-- The loop of `calckeylen` over the list of factors; `k = f->nall / f->nrep` is a
division of `size_t` values. -/
def calckeylenLoop (nreps : Nat) : List Factor → Nat → Nat
  | [], keylen => keylen
  | f :: rest, keylen =>
    calckeylenLoop nreps rest
      (if aboveThreshold f.nrep nreps then mulRepeat f.val (f.nall / f.nrep) keylen
       else keylen)

/-- The function `calckeylen(head, nreps)` of kasiski.c. -/
def calckeylen (head : List Factor) (nreps : Nat) : Nat :=
  calckeylenLoop nreps head 1

/-- The function `sqrsum(freq)` of kasiski.c, in exact rational arithmetic. -/
def sqrsum (freq : List ℚ) : ℚ :=
  (List.range ALPHASIZE).foldl (fun s i => s + freq.getD i 0 * freq.getD i 0) 0

/-- The statement `occ[k]++`. -/
def bump : List Nat → Nat → List Nat
  | [], _ => []
  | x :: rest, 0 => (x + 1) :: rest
  | x :: rest, k + 1 => x :: bump rest k

/-- The first loop of `freq`: `for (i = msgbeg; i < msglen; i += sum)`, counting the
letters met in `occ` and their number in `len`.  The first argument bounds the number
of rounds; `freq` passes `msglen`, enough for every `sum` of at least 1.  The message
holds letters only, so `CTOI` is an index below 26. -/
def freqLoop (msg : List Int) (msglen sum : Nat) : Nat → Nat → List Nat → Nat → List Nat × Nat
  | 0, _, occ, len => (occ, len)
  | fuel + 1, i, occ, len =>
    if i < msglen then
      freqLoop msg msglen sum fuel (i + sum) (bump occ (CTOI (msg.getD i 0)).toNat) (len + 1)
    else (occ, len)

/-- The function `freq(msg, msgbeg, msglen, freq, sum)` of kasiski.c: the vector written
to `freq`.  A `double` is an exact rational, or `none` for the not-a-number `0 / 0.0`
that every entry is when the coset is empty. -/
def freq (msg : List Int) (msgbeg msglen sum : Nat) : List (Option ℚ) :=
  let r := freqLoop msg msglen sum msglen msgbeg (List.replicate ALPHASIZE 0) 0
  (List.range ALPHASIZE).map (fun i =>
    if r.2 = 0 then none else some ((r.1.getD i 0 : ℚ) / (r.2 : ℚ)))

/-- The inner loop of `guesskey` over `k`: the sum `shifsum` for the shift `j`. -/
def shifsum (langfreq : List ℚ) (cipherfreq : List (Option ℚ)) (j : Nat) : Option ℚ :=
  (List.range ALPHASIZE).foldl
    (fun s k =>
      match s, cipherfreq.getD ((k + j) % ALPHASIZE) none with
      | some a, some c => some (a + langfreq.getD k 0 * c)
      | _, _ => none)
    (some 0)

/-- The loop of `guesskey` over `j` for one coset: `shift` and `mindiff` start as 0 and
1.0 and change when `diff < mindiff`, which is false when `diff` is not a number. -/
def bestShift (langfreq : List ℚ) (cipherfreq : List (Option ℚ)) : Nat :=
  ((List.range ALPHASIZE).foldl
    (fun (st : Nat × ℚ) j =>
      match shifsum langfreq cipherfreq j with
      | some s => if |sqrsum langfreq - s| < st.2 then (j, |sqrsum langfreq - s|) else st
      | none => st)
    (0, 1)).1

/-- The function `guesskey(msg, keylen, langfreq)` of kasiski.c: the letters it prints
before the final newline.  The body has no call of `err`: the outcome is always a
printed key. -/
def guesskey (msg : List Int) (keylen : Nat) (langfreq : List ℚ) : Except Fault (List Int) :=
  Except.ok ((List.range keylen).map (fun i =>
    (bestShift langfreq (freq msg i msg.length keylen) : Int) + 97))

/-- The function `main` of kasiski.c after the choice of the frequency table `lfreq`,
over the prime table `primes` and the standard input `input`. -/
def main (lfreq : List ℚ) (primes : List Nat) (input : List Int) : Except Fault (List Int) :=
  match readstdin input with
  | Except.error e => Except.error e
  | Except.ok text =>
    match calcfactors primes (calctrigs text).1 with
    | Except.error e => Except.error e
    | Except.ok factors => guesskey text (calckeylen factors (calctrigs text).2) lfreq

/-- The prime table with last entry 97 (25 primes). -/
def primes97 : List Nat :=
  [2, 3, 5, 7, 11, 13, 17, 19, 23, 29, 31, 37, 41, 43, 47, 53, 59, 61, 67, 71, 73, 79, 83,
   89, 97]

/-- Equality of outcomes is decidable. -/
instance instDecidableEqOutcome {α : Type} [DecidableEq α] : DecidableEq (Except Fault α)
  | Except.ok a, Except.ok b =>
    if h : a = b then isTrue (by rw [h])
    else isFalse (by intro e; cases e; exact h rfl)
  | Except.error a, Except.error b =>
    if h : a = b then isTrue (by rw [h])
    else isFalse (by intro e; cases e; exact h rfl)
  | Except.ok _, Except.error _ => isFalse (by intro e; cases e)
  | Except.error _, Except.ok _ => isFalse (by intro e; cases e)

/-- Primality by trial division, evaluable by reduction. -/
def isPrime (n : Nat) : Bool :=
  decide (2 ≤ n) && (List.range n).all (fun d => decide (d < 2) || decide (n % d ≠ 0))

/-- Modelled from the spec: primes.h, which defines `primes` and `NPRIMES`, is not
among the sources; the spec describes the table as an ascending table of small primes
that covers the primes up to 97 at least.  `primesUpTo N` is the table of all primes
from 2 to `N` in ascending order. -/
def primesUpTo (N : Nat) : List Nat := (List.range (N + 1)).filter isPrime

/-- The text made of `n` consecutive copies of `l`. -/
def repeatText (n : Nat) (l : List Int) : List Int := (List.replicate n l).flatten

/-- The ciphertext of the LEMON scenario: ten copies of "ATTACKATDAWN" (120 letters)
encoded by `encodeVigenere` of encode.c under the key "LEMON". -/
def lemonCiphertext : List Int :=
  (Encode.encodeVigenere (repeatText 10 (str "ATTACKATDAWN")) (str "LEMON")).text

/-- A letter with its case folded to lower case; other characters unchanged. -/
def foldCase (c : Int) : Int := if 65 ≤ c ∧ c ≤ 90 then c + 32 else c

/-- The product that `calckeylen` accumulates in `keylen`, before any reduction modulo
2^32: over the factors that pass the threshold test, the value raised to the integer
quotient `nall / nrep`. -/
def keylenProduct (tally : List Factor) (nreps : Nat) : Nat :=
  ((tally.filter (fun f => aboveThreshold f.nrep nreps)).map
    (fun f => f.val ^ (f.nall / f.nrep))).prod

/-- The indices `i` of the reads `primes[i]` that `factorise` performs, in order, by
the control flow of `factoriseFrom` (which the tally does not influence).  The reads of
the dividing-out loop and of the creation of a node use the index of the read that
found the factor. -/
def readTrace : List Nat → Nat → Bool → Nat → List Nat
  | [], i, searching, val =>
    if searching then [] else if 1 < val then [i] else []
  | p :: rest, i, searching, val =>
    if !searching && decide (val ≤ 1) then []
    else if val % p = 0 then i :: readTrace rest (i + 1) false (divideOut p val val).2
    else i :: readTrace rest (i + 1) true val

/-- The counts `(nrep, nall)` of the node `factors[i]` of a tally, `none` when
`factors[i]` is `NULL`. -/
def countsOf (tally : List Factor) (i : Nat) : Option (Nat × Nat) :=
  (tally.find? (fun f => f.idx == i)).map (fun f => (f.nrep, f.nall))

/-- The vote count of the prime of index `i` in a tally, 0 when it has no node. -/
def nrepOf (tally : List Factor) (i : Nat) : Nat := ((countsOf tally i).getD (0, 0)).1

/-- The total count of the prime of index `i` in a tally, 0 when it has no node. -/
def nallOf (tally : List Factor) (i : Nat) : Nat := ((countsOf tally i).getD (0, 0)).2

/-- The counts of a prime after one more distance in which it has multiplicity `m`. -/
def voteFor (c : Option (Nat × Nat)) (m : Nat) : Option (Nat × Nat) :=
  some ((c.getD (0, 0)).1 + 1, (c.getD (0, 0)).2 + m)

/-- The state of the loop of `calctrigs` before position `i`: every `lastpos` is below
`i`, every recorded distance is positive, no two nodes hash alike, and `nreps` is the
number of recorded distances. -/
def TrigInv (i : Nat) (st : List Trigram × Nat) : Prop :=
  (∀ t ∈ st.1, t.lastpos < i ∧ ∀ g ∈ t.rep, 0 < g) ∧
  (st.1.map (fun t => trigtohash t.trig)).Nodup ∧
  (st.1.map (fun t => t.rep.length)).sum = st.2

/-- Two characters that are the same letter up to case. -/
def SameIgnoringCase (a b : Int) : Prop :=
  isalpha a = true ∧ isalpha b = true ∧ foldCase a = foldCase b

instance instDecidableSameIgnoringCase (a b : Int) : Decidable (SameIgnoringCase a b) := by
  unfold SameIgnoringCase; infer_instance

/-- What the analysis reads of a trigram node: the index of its window, its recorded
distances and its `lastpos`. -/
def shape (t : Trigram) : Nat × List Nat × Nat := (trigtohash t.trig, t.rep, t.lastpos)

/-- The step `inccount` seen on the shapes of the nodes, for a window of index `h` at
position `n`. -/
def shapeStep (l : List (Nat × List Nat × Nat)) (h n : Nat) : List (Nat × List Nat × Nat) :=
  if l.any (fun s => s.1 == h) then
    l.map (fun s => if s.1 == h then (s.1, (n - s.2.2) :: s.2.1, n - s.2.2) else s)
  else (h, [], n) :: l

end Kasiski

/-! ## Theorems -/

/-- The C idiom `if ((x %= 26) < 0) x += 26` computes the Euclidean remainder. -/
theorem tmod_fixup (x : Int) :
    (if Int.tmod x 26 < 0 then Int.tmod x 26 + 26 else Int.tmod x 26) = x % 26 := by
  rcases x with m | m
  · have h : Int.tmod (Int.ofNat m) 26 = ((m % 26 : Nat) : Int) := rfl
    rw [h]
    have h2 : (Int.ofNat m) = (m : Int) := rfl
    rw [h2]
    split <;> omega
  · have h : Int.tmod (Int.negSucc m) 26 = -(((m + 1) % 26 : Nat) : Int) := rfl
    rw [h]
    have h2 : Int.negSucc m = -((m : Int) + 1) := Int.negSucc_eq m
    rw [h2]
    split <;> omega

namespace Vigenere

theorem alphaxor_upper (ch add : Int) (h : 65 ≤ ch ∧ ch ≤ 90) :
    alphaxor ch add = ((ch - 65 + add) % 26, 65 + (ch - 65 + add) % 26) := by
  have := tmod_fixup (ch - 65 + add)
  simp only [alphaxor, ALPHASIZE, h, and_self, if_true]
  rw [this]

theorem alphaxor_lower (ch add : Int) (h : 97 ≤ ch ∧ ch ≤ 122) :
    alphaxor ch add = ((ch - 97 + add) % 26, 97 + (ch - 97 + add) % 26) := by
  have h1 : ¬ (65 ≤ ch ∧ ch ≤ 90) := by omega
  have := tmod_fixup (ch - 97 + add)
  simp only [alphaxor, ALPHASIZE, h1, h, and_self, if_true, if_false]
  rw [this]

theorem alphaxor_other (ch add : Int) (h : ¬ isLetter ch) :
    alphaxor ch add = (-1, ch) := by
  have h1 : ¬ (65 ≤ ch ∧ ch ≤ 90) := fun h1 => h (Or.inl h1)
  have h2 : ¬ (97 ≤ ch ∧ ch ≤ 122) := fun h2 => h (Or.inr h2)
  simp only [alphaxor, h1, h2, if_false]

/-- Decoding one character undoes encoding it, and both move the cursor alike. -/
theorem alphaxor_inverse (ch k : Int) :
    (alphaxor (alphaxor ch (1 * k)).2 (-1 * k)).2 = ch ∧
    ((alphaxor (alphaxor ch (1 * k)).2 (-1 * k)).1 ≠ -1 ↔ (alphaxor ch (1 * k)).1 ≠ -1) := by
  by_cases hu : 65 ≤ ch ∧ ch ≤ 90
  · rw [alphaxor_upper ch _ hu]
    have hr : 65 ≤ 65 + (ch - 65 + 1 * k) % 26 ∧ 65 + (ch - 65 + 1 * k) % 26 ≤ 90 := by omega
    rw [alphaxor_upper _ _ hr]
    constructor
    · show 65 + _ = ch
      omega
    · show _ ≠ _ ↔ _ ≠ _
      constructor <;> intro _ <;> omega
  · by_cases hl : 97 ≤ ch ∧ ch ≤ 122
    · rw [alphaxor_lower ch _ hl]
      have hr : 97 ≤ 97 + (ch - 97 + 1 * k) % 26 ∧ 97 + (ch - 97 + 1 * k) % 26 ≤ 122 := by
        omega
      rw [alphaxor_lower _ _ hr]
      constructor
      · show 97 + _ = ch
        omega
      · show _ ≠ _ ↔ _ ≠ _
        constructor <;> intro _ <;> omega
    · have hn : ¬ isLetter ch := fun h => h.elim hu hl
      rw [alphaxor_other ch _ hn]
      show (alphaxor ch (-1 * k)).2 = ch ∧ _
      rw [alphaxor_other ch _ hn]
      simp

theorem encryptLoop_roundtrip (key : List Int) (input : List Int) :
    ∀ i : Nat, encryptLoop key (-1) i (encryptLoop key 1 i input) = input := by
  induction input with
  | nil => intro i; rfl
  | cons ch rest ih =>
    intro i
    have h := alphaxor_inverse ch (key.getD i 0)
    simp only [encryptLoop]
    rw [h.1]
    by_cases hc : (alphaxor ch (1 * key.getD i 0)).1 ≠ -1
    · have hd := h.2.mpr hc
      rw [if_pos hc, if_pos hd, ih]
    · have hd : ¬ (alphaxor (alphaxor ch (1 * key.getD i 0)).2 (-1 * key.getD i 0)).1 ≠ -1 :=
        fun hd => hc (h.2.mp hd)
      rw [if_neg hc, if_neg hd, ih]

/-- C1. Round trip of vigenere.c: for a plaintext of letters and spaces and an
alphabetic key of length at least 1, `encrypt` with `prod = -1` applied to the output
of `encrypt` with `prod = 1` under the same key gives back the plaintext. -/
theorem encrypt_roundtrip (plaintext key : List Int)
    (_hp : ∀ c ∈ plaintext, isLetter c ∨ c = 32)
    (_hk : 1 ≤ key.length ∧ ∀ c ∈ key, isLetter c) :
    encrypt key (-1) (encrypt key 1 plaintext) = plaintext := by
  unfold encrypt
  exact encryptLoop_roundtrip _ plaintext 0

theorem encrypt_roundtrip_witness :
    (∀ c ∈ str "Attack at dawn", isLetter c ∨ c = 32) ∧
    (1 ≤ (str "Lemon").length ∧ ∀ c ∈ str "Lemon", isLetter c) ∧
    encrypt (str "Lemon") 1 (str "Attack at dawn") = str "Lxfopv ef rnhr" ∧
    encrypt (str "Lemon") (-1) (encrypt (str "Lemon") 1 (str "Attack at dawn"))
      = str "Attack at dawn" :=
  ⟨by decide, by decide, by decide,
   encrypt_roundtrip (str "Attack at dawn") (str "Lemon") (by decide) (by decide)⟩

end Vigenere

namespace Encode

theorem isalpha_iff (c : Int) :
    isalpha c = true ↔ (65 ≤ c ∧ c ≤ 90) ∨ (97 ≤ c ∧ c ≤ 122) := by
  simp [isalpha]

theorem isupper_iff (c : Int) : isupper c = true ↔ (65 ≤ c ∧ c ≤ 90) := by
  simp [isupper]

theorem islower_iff (c : Int) : islower c = true ↔ (97 ≤ c ∧ c ≤ 122) := by
  simp [islower]

theorem checkKey_alpha (key : List Int) (h : ∀ c ∈ key, isalpha c = true) :
    checkKey key = some (key.map toupper) := by
  induction key with
  | nil => rfl
  | cons c rest ih =>
    have hc : isalpha c = true := h c (List.mem_cons_self c rest)
    have hr := ih (fun d hd => h d (List.mem_cons_of_mem c hd))
    simp [checkKey, hc, hr]

theorem checkKey_none_iff (key : List Int) :
    checkKey key = none ↔ ∃ c ∈ key, isalpha c = false := by
  induction key with
  | nil => simp [checkKey]
  | cons c rest ih =>
    by_cases hc : isalpha c = true
    · have hc2 : ¬ isalpha c = false := by simp [hc]
      simp [checkKey, hc, ih]
    · have hc2 : isalpha c = false := by simpa using hc
      simp [checkKey, hc2]

/-- The second loop never stops early under a non-empty key, keeps the length and
writes `encChar` at every position, the key cursor being the number of letters met. -/
theorem encodeLoop_spec (K : List Int) (L : Nat) (hL : L ≠ 0) (text : List Int) :
    ∀ j : Nat, ∃ out, encodeLoop K L j text = some out ∧ out.length = text.length ∧
      ∀ (i : Nat) (c : Int), text[i]? = some c →
        out[i]? = some (encChar c (K.getD ((j + (text.take i).countP isalpha) % L) 0)) := by
  induction text with
  | nil => intro j; exact ⟨[], rfl, rfl, by simp⟩
  | cons c rest ih =>
    intro j
    by_cases hc : isalpha c = true
    · obtain ⟨out, ho, hlen, hget⟩ := ih (j + 1)
      refine ⟨_ :: out, by simp [encodeLoop, hc, hL, ho]; rfl, by simp [hlen], ?_⟩
      intro i d hd
      cases i with
      | zero =>
        simp only [List.getElem?_cons_zero, Option.some.injEq] at hd
        subst hd
        simp [encChar, hc]
      | succ i =>
        simp only [List.getElem?_cons_succ] at hd
        have := hget i d hd
        simp only [List.getElem?_cons_succ, this, List.take_succ_cons, List.countP_cons, hc,
          if_true]
        have e : j + 1 + List.countP isalpha (List.take i rest)
            = j + (List.countP isalpha (List.take i rest) + 1) := by omega
        rw [e]
    · have hc2 : isalpha c = false := by simpa using hc
      obtain ⟨out, ho, hlen, hget⟩ := ih j
      refine ⟨c :: out, by simp [encodeLoop, hc2, ho], by simp [hlen], ?_⟩
      intro i d hd
      cases i with
      | zero =>
        simp only [List.getElem?_cons_zero, Option.some.injEq] at hd
        subst hd
        simp [encChar, hc2]
      | succ i =>
        simp only [List.getElem?_cons_succ] at hd
        have := hget i d hd
        simp [this, List.take_succ_cons, List.countP_cons, hc2]

/-- Under a non-empty alphabetic key the call returns, and position `i` of the text
holds `encChar` of the old character and the upper-cased key character under the
cursor. -/
theorem encodeVigenere_get (text key : List Int)
    (hk : key ≠ [] ∧ ∀ c ∈ key, isalpha c = true) :
    (encodeVigenere text key).status = Status.success ∧
    (encodeVigenere text key).text.length = text.length ∧
    ∀ (i : Nat) (c : Int), text[i]? = some c →
      (encodeVigenere text key).text[i]? = some (encChar c
        (toupper (key.getD ((text.take i).countP isalpha % key.length) 0))) := by
  have hL : key.length ≠ 0 := by
    intro h
    exact hk.1 (List.length_eq_zero.mp h)
  obtain ⟨out, ho, hlen, hget⟩ := encodeLoop_spec (key.map toupper) key.length hL text 0
  have hE : encodeVigenere text key = ⟨Status.success, out⟩ := by
    simp [encodeVigenere, checkKey_alpha key hk.2, ho]
  rw [hE]
  refine ⟨rfl, hlen, ?_⟩
  intro i c hc
  have h := hget i c hc
  simp only [Nat.zero_add] at h
  rw [h]
  have hlt : (text.take i).countP isalpha % key.length < key.length :=
    Nat.mod_lt _ (Nat.pos_of_ne_zero hL)
  have e : (key.map toupper).getD ((text.take i).countP isalpha % key.length) 0
      = toupper (key.getD ((text.take i).countP isalpha % key.length) 0) := by
    simp [List.getD_eq_getElem?_getD, List.getElem?_map, List.getElem?_eq_getElem hlt]
  rw [e]

theorem getD_mem_of_lt (key : List Int) (n : Nat) (h : n < key.length) :
    key.getD n 0 ∈ key := by
  rw [List.getD_eq_getElem?_getD, List.getElem?_eq_getElem h]
  exact List.getElem_mem h

theorem pos_upper (c : Int) (h : 65 ≤ c ∧ c ≤ 90) : pos c = c - 65 := by
  simp [pos, h]

theorem pos_lower (c : Int) (h : 97 ≤ c ∧ c ≤ 122) : pos c = c - 97 := by
  have h1 : ¬ (65 ≤ c ∧ c ≤ 90) := by omega
  simp [pos, h1]

theorem toupper_shift (k : Int) (hk : isalpha k = true) :
    0 ≤ toupper k - 65 ∧ toupper k - 65 < 26 ∧ toupper k - 65 = pos k := by
  rw [isalpha_iff] at hk
  rcases hk with hu | hl
  · have h1 : ¬ (97 ≤ k ∧ k ≤ 122) := by omega
    have ht : toupper k = k := by simp only [toupper, h1, if_false]
    rw [pos_upper k hu, ht]
    exact ⟨by omega, by omega, rfl⟩
  · have ht : toupper k = k - 32 := by simp only [toupper, hl, and_self, if_true]
    rw [pos_lower k hl, ht]
    exact ⟨by omega, by omega, by omega⟩

/-- The character written for a letter `c` under the key letter `k`. -/
theorem encChar_letter (c k : Int) (hc : isalpha c = true) (hk : isalpha k = true) :
    isalpha (encChar c (toupper k)) = true ∧
    pos (encChar c (toupper k)) = (pos c + pos k) % 26 ∧
    (isupper c = true → isupper (encChar c (toupper k)) = true) ∧
    (islower c = true → islower (encChar c (toupper k)) = true) := by
  have hs := toupper_shift k hk
  have ha := hc
  rw [isalpha_iff] at hc
  rcases hc with hu | hl
  · have e : encChar c (toupper k) = (c - 65 + (toupper k - 65)) % 26 + 65 := by
      have hup : isupper c = true := (isupper_iff c).mpr hu
      simp only [encChar, ha, hup, if_true]
      rw [Int.tmod_eq_emod (by omega) (by decide)]
    have hr : 65 ≤ (c - 65 + (toupper k - 65)) % 26 + 65 ∧
        (c - 65 + (toupper k - 65)) % 26 + 65 ≤ 90 := by omega
    rw [e, isalpha_iff, isupper_iff, islower_iff, isupper_iff, islower_iff, pos_upper _ hr,
      pos_upper c hu]
    refine ⟨by omega, by omega, by omega, by omega⟩
  · have e : encChar c (toupper k) = (c - 97 + (toupper k - 65)) % 26 + 97 := by
      have hup : isupper c = false := by
        rw [Bool.eq_false_iff, Ne, isupper_iff]; omega
      simp only [encChar, ha, hup, if_true, Bool.false_eq_true, if_false]
      rw [Int.tmod_eq_emod (by omega) (by decide)]
    have hr : 97 ≤ (c - 97 + (toupper k - 65)) % 26 + 97 ∧
        (c - 97 + (toupper k - 65)) % 26 + 97 ≤ 122 := by omega
    rw [e, isalpha_iff, isupper_iff, islower_iff, isupper_iff, islower_iff, pos_lower _ hr,
      pos_lower c hl]
    refine ⟨by omega, by omega, by omega, by omega⟩

theorem encChar_other (c k : Int) (hc : isalpha c = false) : encChar c k = c := by
  simp [encChar, hc]

end Encode

namespace Encode

/-- C2. Encode definition: under a non-empty alphabetic key `K` of length `L` the call
of `encodeVigenere` returns, and a letter at index `i` of the text, with exactly `m`
letters before index `i`, is replaced by a letter whose alphabet position is
`(pos(text[i]) + pos(K[m mod L])) mod 26`: the key cursor counts the letters only. -/
theorem encodeVigenere_definition (text key : List Int)
    (hk : key ≠ [] ∧ ∀ c ∈ key, isalpha c = true) :
    (encodeVigenere text key).status = Status.success ∧
    ∀ (i : Nat) (c : Int), text[i]? = some c → isalpha c = true →
      ∃ d, (encodeVigenere text key).text[i]? = some d ∧ isalpha d = true ∧
        pos d = (pos c + pos (key.getD ((text.take i).countP isalpha % key.length) 0)) % 26 := by
  obtain ⟨hs, _, hget⟩ := encodeVigenere_get text key hk
  refine ⟨hs, ?_⟩
  intro i c hc ha
  have hL : 0 < key.length := List.length_pos.mpr hk.1
  have hkc := hk.2 _ (getD_mem_of_lt key _
    (Nat.mod_lt ((text.take i).countP isalpha) hL))
  have h := encChar_letter c _ ha hkc
  exact ⟨_, hget i c hc, h.1, h.2.1⟩

theorem encodeVigenere_definition_witness :
    (str "key" ≠ [] ∧ ∀ c ∈ str "key", isalpha c = true) ∧
    (encodeVigenere (str "a-b c") (str "key")).status = Status.success ∧
    ∀ (i : Nat) (c : Int), (str "a-b c")[i]? = some c → isalpha c = true →
      ∃ d, (encodeVigenere (str "a-b c") (str "key")).text[i]? = some d ∧ isalpha d = true ∧
        pos d = (pos c + pos ((str "key").getD
          (((str "a-b c").take i).countP isalpha % (str "key").length) 0)) % 26 :=
  ⟨by decide, encodeVigenere_definition (str "a-b c") (str "key") (by decide)⟩

/-- C3. Case and punctuation preservation: under a non-empty alphabetic key the output
of `encodeVigenere` has the length of the input, a position holding no letter keeps
its character, an upper-case letter becomes an upper-case letter and a lower-case
letter a lower-case letter. -/
theorem encodeVigenere_preserves (text key : List Int)
    (hk : key ≠ [] ∧ ∀ c ∈ key, isalpha c = true) :
    (encodeVigenere text key).status = Status.success ∧
    (encodeVigenere text key).text.length = text.length ∧
    ∀ (i : Nat) (c : Int), text[i]? = some c →
      ∃ d, (encodeVigenere text key).text[i]? = some d ∧
        (isalpha c = false → d = c) ∧
        (isupper c = true → isupper d = true) ∧
        (islower c = true → islower d = true) := by
  obtain ⟨hs, hlen, hget⟩ := encodeVigenere_get text key hk
  refine ⟨hs, hlen, ?_⟩
  intro i c hc
  refine ⟨_, hget i c hc, ?_, ?_, ?_⟩
  · intro hn
    exact encChar_other c _ hn
  · intro hu
    have hL : 0 < key.length := List.length_pos.mpr hk.1
    have hkc := hk.2 _ (getD_mem_of_lt key _
      (Nat.mod_lt ((text.take i).countP isalpha) hL))
    have ha : isalpha c = true := by
      rw [isalpha_iff]; exact Or.inl ((isupper_iff c).mp hu)
    exact (encChar_letter c _ ha hkc).2.2.1 hu
  · intro hl
    have hL : 0 < key.length := List.length_pos.mpr hk.1
    have hkc := hk.2 _ (getD_mem_of_lt key _
      (Nat.mod_lt ((text.take i).countP isalpha) hL))
    have ha : isalpha c = true := by
      rw [isalpha_iff]; exact Or.inr ((islower_iff c).mp hl)
    exact (encChar_letter c _ ha hkc).2.2.2 hl

theorem encodeVigenere_preserves_witness :
    (str "Key" ≠ [] ∧ ∀ c ∈ str "Key", isalpha c = true) ∧
    encodeVigenere (str "Ab, c!") (str "Key") = ⟨Status.success, str "Kf, a!"⟩ ∧
    (encodeVigenere (str "Ab, c!") (str "Key")).text.length = (str "Ab, c!").length :=
  ⟨by decide, by decide,
   (encodeVigenere_preserves (str "Ab, c!") (str "Key") (by decide)).2.1⟩

/-- C5. Invalid key: `encodeVigenere` ends with the invalid-key error exactly when the
key holds a character that is no letter; the text buffer is then still the input, the
check of the key having run before the loop over the text. -/
theorem encodeVigenere_invalidKey_iff (text key : List Int) :
    ((encodeVigenere text key).status = Status.invalidKey ↔ ∃ c ∈ key, isalpha c = false) ∧
    ((encodeVigenere text key).status = Status.invalidKey →
      (encodeVigenere text key).text = text ∧ checkKey key = none) := by
  have key_fact : (encodeVigenere text key).status = Status.invalidKey ↔ checkKey key = none := by
    unfold encodeVigenere
    cases hck : checkKey key with
    | none => simp
    | some K =>
      cases hl : encodeLoop K key.length 0 text <;> simp [hl]
  refine ⟨key_fact.trans (checkKey_none_iff key), ?_⟩
  intro h
  have hn := key_fact.mp h
  refine ⟨?_, hn⟩
  simp [encodeVigenere, hn]

end Encode

namespace Kasiski

theorem calctrigs_short (text : List Int) (h : text.length < 3) :
    calctrigs text = ([], 0) := by
  match text, h with
  | [], _ => rfl
  | [_], _ => rfl
  | [_, _], _ => rfl
  | _ :: _ :: _ :: _, h => simp at h; omega

theorem guesskey_ok (msg : List Int) (keylen : Nat) (langfreq : List ℚ) :
    ∃ key, guesskey msg keylen langfreq = Except.ok key ∧ key.length = keylen :=
  ⟨_, rfl, by simp⟩

theorem readstdin_nonempty (b : Int) (rest : List Int) :
    readstdin (b :: rest) = Except.ok (readLoop 0 false (b :: rest)) := rfl

/-- A run on a text of fewer than three letters: no trigram, key length 1. -/
theorem short_text_run (lfreq : List ℚ) (primes : List Nat) (input text : List Int)
    (hr : readstdin input = Except.ok text) (hlen : text.length < 3) :
    calctrigs text = ([], 0) ∧ calcfactors primes (calctrigs text).1 = Except.ok [] ∧
    calckeylen [] (calctrigs text).2 = 1 ∧
    ∃ key, main lfreq primes input = Except.ok key ∧ key.length = 1 := by
  have ht := calctrigs_short text hlen
  have hf : calcfactors primes (calctrigs text).1 = Except.ok [] := by rw [ht]; rfl
  have hk : calckeylen [] (calctrigs text).2 = 1 := rfl
  refine ⟨ht, hf, hk, ?_⟩
  obtain ⟨key, hkey, hl⟩ := guesskey_ok text 1 lfreq
  refine ⟨key, ?_, hl⟩
  simp only [main, hr, hf, hk]
  exact hkey

/-- C6 (as stated, refuted). Inputs whose normalized text has zero, respectively two,
letters: the run ends without any error and prints a key of one letter. -/
theorem short_text_still_prints_key :
    main freqen primes97 (str "12") = Except.ok (str "a") ∧
    ∃ key, main freqen primes97 (str "ab") = Except.ok key ∧ key.length = 1 :=
  ⟨by rfl, (short_text_run freqen primes97 (str "ab") (str "ab") (by decide) (by decide)).2.2.2⟩

/-- C6 (amended). The input error of `readstdin` is raised, and no key printed, when
standard input is empty.  For an input from which `readstdin` returns a text of fewer
than 3 letters (zero included) no error is raised: `calctrigs` finds no trigram and no
repetition, `calcfactors` no factor, `calckeylen` returns 1 and the run prints a key of
exactly one letter. -/
theorem main_short_input (lfreq : List ℚ) (primes : List Nat) :
    main lfreq primes [] = Except.error Fault.couldNotRead ∧
    ∀ input text : List Int, readstdin input = Except.ok text → text.length < 3 →
      calctrigs text = ([], 0) ∧ calcfactors primes (calctrigs text).1 = Except.ok [] ∧
      calckeylen [] (calctrigs text).2 = 1 ∧
      ∃ key, main lfreq primes input = Except.ok key ∧ key.length = 1 :=
  ⟨rfl, fun input text hr hlen => short_text_run lfreq primes input text hr hlen⟩

theorem main_short_input_witness :
    readstdin (str "a, b!\n") = Except.ok (str "ab") ∧ (str "ab").length < 3 ∧
    ∃ key, main freqen primes97 (str "a, b!\n") = Except.ok key ∧ key.length = 1 :=
  ⟨by decide, by decide,
   ((main_short_input freqen primes97).2 (str "a, b!\n") (str "ab")
      (by decide) (by decide)).2.2.2⟩

/-- C8 (as stated, refuted). For the text "AB" and the key length 3, whose third coset
is empty, `guesskey` ends without error and prints a key of three letters. -/
theorem guesskey_empty_coset_prints_key :
    ∃ key, guesskey (str "AB") 3 freqen = Except.ok key ∧ key.length = 3 ∧
      key[2]? = some 97 :=
  ⟨_, rfl, by decide, by rfl⟩

/-- C8 (amended). `guesskey` has no empty-coset error: for every text and every key
length `L`, also one greater than the length of the text, it ends without error and
prints a key of exactly `L` letters. -/
theorem guesskey_never_fails (msg : List Int) (L : Nat) (langfreq : List ℚ) :
    ∃ key, guesskey msg L langfreq = Except.ok key ∧ key.length = L :=
  guesskey_ok msg L langfreq

end Kasiski

namespace Kasiski

/-- The floating-point test of `calckeylen` is a strict majority of the votes. -/
theorem ratio_gt_half_iff (a b : Nat) (hb : b ≠ 0) :
    ((a : ℚ) / (b : ℚ) > 1 / 2) ↔ b < 2 * a := by
  have hb2 : (0 : ℚ) < b := by exact_mod_cast Nat.pos_of_ne_zero hb
  rw [gt_iff_lt, div_lt_div_iff₀ (by norm_num) hb2]
  constructor
  · intro h
    have h2 : ((1 * b : Nat) : ℚ) < ((a * 2 : Nat) : ℚ) := by push_cast; linarith
    have h3 := Nat.cast_lt.mp h2
    omega
  · intro h
    have h2 : ((1 * b : Nat) : ℚ) < ((a * 2 : Nat) : ℚ) := by
      exact_mod_cast (by omega : 1 * b < a * 2)
    push_cast at h2
    linarith

theorem aboveThreshold_eq (nrep nreps : Nat) :
    aboveThreshold nrep nreps = decide (nreps < 2 * nrep) := by
  unfold aboveThreshold THRESHOLD
  by_cases h : nreps = 0
  · subst h
    simp
  · rw [if_neg h]
    exact decide_eq_decide.mpr (ratio_gt_half_iff nrep nreps h)

theorem mulRepeat_eq (val : Nat) :
    ∀ (k keylen : Nat), keylen < 4294967296 →
      mulRepeat val k keylen = (keylen * val ^ k) % 4294967296 := by
  intro k
  induction k with
  | zero =>
    intro keylen h
    simp [mulRepeat, Nat.mod_eq_of_lt h]
  | succ k ih =>
    intro keylen _
    rw [mulRepeat, ih _ (Nat.mod_lt _ (by decide))]
    rw [Nat.mul_mod, Nat.mod_mod, ← Nat.mul_mod, pow_succ]
    congr 1
    ring

theorem calckeylenLoop_eq (nreps : Nat) (tally : List Factor) :
    ∀ keylen : Nat, keylen < 4294967296 →
      calckeylenLoop nreps tally keylen =
        (keylen * ((tally.filter (fun f => aboveThreshold f.nrep nreps)).map
          (fun f => f.val ^ (f.nall / f.nrep))).prod) % 4294967296 := by
  induction tally with
  | nil =>
    intro keylen h
    simp [calckeylenLoop, Nat.mod_eq_of_lt h]
  | cons f rest ih =>
    intro keylen h
    by_cases ha : aboveThreshold f.nrep nreps = true
    · simp only [calckeylenLoop, ha, if_true, List.filter_cons_of_pos, List.map_cons,
        List.prod_cons]
      rw [mulRepeat_eq _ _ _ h, ih _ (Nat.mod_lt _ (by decide))]
      rw [Nat.mul_mod, Nat.mod_mod, ← Nat.mul_mod]
      congr 1
      ring
    · simp only [calckeylenLoop, ha, if_false, Bool.false_eq_true]
      have hfil : (f :: rest).filter (fun f => aboveThreshold f.nrep nreps)
          = rest.filter (fun f => aboveThreshold f.nrep nreps) := by
        simp [List.filter_cons, ha]
      rw [ih _ h, hfil]

end Kasiski

namespace Kasiski

/-- A factorisation that ends inside a table ends alike in every longer table. -/
theorem factoriseFrom_append (more : List Nat) (ps : List Nat) :
    ∀ (i : Nat) (searching : Bool) (tally : List Factor) (val : Nat) (t : List Factor),
      factoriseFrom ps i searching tally val = Except.ok t →
      factoriseFrom (ps ++ more) i searching tally val = Except.ok t := by
  induction ps with
  | nil =>
    intro i searching tally val t h
    cases searching with
    | true => simp [factoriseFrom] at h
    | false =>
      by_cases hv : 1 < val
      · simp [factoriseFrom, hv] at h
      · have hle : val ≤ 1 := by omega
        simp only [factoriseFrom, hv, if_false, Bool.false_eq_true] at h
        cases more with
        | nil => simp [factoriseFrom, hv, h]
        | cons p rest => simp [factoriseFrom, hle, h]
  | cons p ps ih =>
    intro i searching tally val t h
    simp only [List.cons_append, factoriseFrom] at h ⊢
    by_cases h1 : (!searching && decide (val ≤ 1)) = true
    · rw [if_pos h1] at h ⊢
      exact h
    · rw [if_neg h1] at h ⊢
      by_cases h2 : val % p = 0
      · rw [if_pos h2] at h ⊢
        exact ih _ _ _ _ _ h
      · rw [if_neg h2] at h ⊢
        exact ih _ _ _ _ _ h

theorem factorise_append (more ps : List Nat) (tally : List Factor) (val : Nat)
    (t : List Factor) (h : factorise ps tally val = Except.ok t) :
    factorise (ps ++ more) tally val = Except.ok t := by
  unfold factorise at h ⊢
  by_cases hv : val = 0 ∨ val = 1
  · rw [if_pos hv] at h ⊢
    exact h
  · rw [if_neg hv] at h ⊢
    exact factoriseFrom_append more ps _ _ _ _ _ h

theorem factoriseAll_append (more ps : List Nat) (gaps : List Nat) :
    ∀ (tally t : List Factor), factoriseAll ps gaps tally = Except.ok t →
      factoriseAll (ps ++ more) gaps tally = Except.ok t := by
  induction gaps with
  | nil => intro tally t h; exact h
  | cons g rest ih =>
    intro tally t h
    simp only [factoriseAll] at h ⊢
    cases hf : factorise ps tally g with
    | error e => rw [hf] at h; cases h
    | ok t1 =>
      rw [hf] at h
      rw [factorise_append more ps tally g t1 hf]
      exact ih _ _ h

theorem calcfactorsLoop_append (more ps : List Nat) (trigs : List Trigram) :
    ∀ (tally t : List Factor), calcfactorsLoop ps trigs tally = Except.ok t →
      calcfactorsLoop (ps ++ more) trigs tally = Except.ok t := by
  induction trigs with
  | nil => intro tally t h; exact h
  | cons tr rest ih =>
    intro tally t h
    simp only [calcfactorsLoop] at h ⊢
    cases hf : factoriseAll ps tr.rep tally with
    | error e => rw [hf] at h; cases h
    | ok t1 =>
      rw [hf] at h
      rw [factoriseAll_append more ps tr.rep tally t1 hf]
      exact ih _ _ h

theorem calcfactors_append (more ps : List Nat) (trigs : List Trigram) (t : List Factor)
    (h : calcfactors ps trigs = Except.ok t) :
    calcfactors (ps ++ more) trigs = Except.ok t :=
  calcfactorsLoop_append more ps trigs [] t h

/-- Every table of the primes up to a bound of at least 97 starts with 2, 3, 5. -/
theorem primesUpTo_prefix (N : Nat) (h : 97 ≤ N) :
    ∃ more, primesUpTo N = [2, 3, 5] ++ more := by
  have e : N + 1 = 6 + (N - 5) := by omega
  refine ⟨((List.range (N - 5)).map (fun x => 6 + x)).filter isPrime, ?_⟩
  unfold primesUpTo
  rw [e, List.range_add, List.filter_append]
  rfl

set_option maxRecDepth 100000 in
/-- The analysis of the LEMON ciphertext over the table 2, 3, 5. -/
theorem lemon_analysis :
    lemonCiphertext.length = 120 ∧
    readstdin lemonCiphertext = Except.ok lemonCiphertext ∧
    (calctrigs lemonCiphertext).2 = 58 ∧
    (calctrigs lemonCiphertext).1.all (fun t => t.rep.all (fun g => g == 60)) = true ∧
    calcfactors [2, 3, 5] (calctrigs lemonCiphertext).1
      = Except.ok [⟨2, 5, 58, 58⟩, ⟨1, 3, 58, 58⟩, ⟨0, 2, 58, 116⟩] := by
  decide

theorem lemon_tally_keylen : calckeylen [⟨2, 5, 58, 58⟩, ⟨1, 3, 58, 58⟩, ⟨0, 2, 58, 116⟩] 58 = 60 := by
  simp [calckeylen, calckeylenLoop, aboveThreshold_eq, mulRepeat]

/-- C10 (as stated, refuted). With the prime table ending at 97, the key length
computed for the LEMON ciphertext is 60, not 5, and the run prints 60 letters. -/
theorem lemon_keylen_is_not_five :
    ∃ tally, calcfactors primes97 (calctrigs lemonCiphertext).1 = Except.ok tally ∧
      calckeylen tally (calctrigs lemonCiphertext).2 = 60 ∧
      calckeylen tally (calctrigs lemonCiphertext).2 ≠ 5 ∧
      ∃ key, main freqen primes97 lemonCiphertext = Except.ok key ∧ key.length = 60 := by
  have hc : calcfactors primes97 (calctrigs lemonCiphertext).1
      = Except.ok [⟨2, 5, 58, 58⟩, ⟨1, 3, 58, 58⟩, ⟨0, 2, 58, 116⟩] :=
    calcfactors_append [7, 11, 13, 17, 19, 23, 29, 31, 37, 41, 43, 47, 53, 59, 61, 67, 71,
      73, 79, 83, 89, 97] [2, 3, 5] _ _ lemon_analysis.2.2.2.2
  have hk : calckeylen [⟨2, 5, 58, 58⟩, ⟨1, 3, 58, 58⟩, ⟨0, 2, 58, 116⟩]
      (calctrigs lemonCiphertext).2 = 60 := by
    rw [lemon_analysis.2.2.1]; exact lemon_tally_keylen
  refine ⟨_, hc, hk, by rw [hk]; decide, ?_⟩
  obtain ⟨key, hkey, hl⟩ := guesskey_ok lemonCiphertext 60 freqen
  refine ⟨key, ?_, hl⟩
  simp only [main, lemon_analysis.2.1, hc, hk]
  exact hkey

/-- C10 (amended). For the ciphertext obtained by encoding 10 consecutive repetitions of
"ATTACKATDAWN" (120 letters) with the key "LEMON", and every table of the ascending
primes from 2 up to a bound of at least 97: `calctrigs` finds 58 repetitions, each at
distance 60 (the least common multiple of the period 12 of the plaintext and the key
length 5), the key length computed by `calcfactors` and `calckeylen` is 60, and the
run with the English table prints a key of exactly 60 letters. -/
theorem lemon_scenario (N : Nat) (h : 97 ≤ N) :
    (calctrigs lemonCiphertext).2 = 58 ∧
    (∀ t ∈ (calctrigs lemonCiphertext).1, ∀ g ∈ t.rep, g = 60) ∧
    ∃ tally, calcfactors (primesUpTo N) (calctrigs lemonCiphertext).1 = Except.ok tally ∧
      calckeylen tally (calctrigs lemonCiphertext).2 = 60 ∧
      ∃ key, guesskey lemonCiphertext 60 freqen = Except.ok key ∧
        main freqen (primesUpTo N) lemonCiphertext = Except.ok key ∧ key.length = 60 := by
  obtain ⟨more, hm⟩ := primesUpTo_prefix N h
  have hc : calcfactors (primesUpTo N) (calctrigs lemonCiphertext).1
      = Except.ok [⟨2, 5, 58, 58⟩, ⟨1, 3, 58, 58⟩, ⟨0, 2, 58, 116⟩] := by
    rw [hm]
    exact calcfactors_append more [2, 3, 5] _ _ lemon_analysis.2.2.2.2
  have hk : calckeylen [⟨2, 5, 58, 58⟩, ⟨1, 3, 58, 58⟩, ⟨0, 2, 58, 116⟩]
      (calctrigs lemonCiphertext).2 = 60 := by
    rw [lemon_analysis.2.2.1]; exact lemon_tally_keylen
  refine ⟨lemon_analysis.2.2.1, ?_, _, hc, hk, ?_⟩
  · intro t ht g hg
    have hall := lemon_analysis.2.2.2.1
    rw [List.all_eq_true] at hall
    have ht2 := hall t ht
    rw [List.all_eq_true] at ht2
    simpa using ht2 g hg
  · obtain ⟨key, hkey, hl⟩ := guesskey_ok lemonCiphertext 60 freqen
    refine ⟨key, hkey, ?_, hl⟩
    simp only [main, lemon_analysis.2.1, hc, hk]
    exact hkey

theorem lemon_scenario_witness :
    97 ≤ 97 ∧ primesUpTo 97 = primes97 ∧
    ∃ tally, calcfactors (primesUpTo 97) (calctrigs lemonCiphertext).1 = Except.ok tally ∧
      calckeylen tally (calctrigs lemonCiphertext).2 = 60 ∧
      ∃ key, guesskey lemonCiphertext 60 freqen = Except.ok key ∧
        main freqen (primesUpTo 97) lemonCiphertext = Except.ok key ∧ key.length = 60 :=
  ⟨by decide, by decide, (lemon_scenario 97 (by decide)).2.2⟩

end Kasiski

namespace Kasiski

/-- The bound that `factorise` passes to `divideOut` is never reached: for a divisor
`p` of at least 2 of a positive `val` the loop ends by its own test, after at least one
round, having divided out a power of `p`. -/
theorem divideOut_spec (p : Nat) (hp : 2 ≤ p) :
    ∀ fuel val : Nat, 0 < val → val % p = 0 → val ≤ fuel →
      1 ≤ (divideOut p fuel val).1 ∧
      val = p ^ (divideOut p fuel val).1 * (divideOut p fuel val).2 ∧
      (divideOut p fuel val).2 % p ≠ 0 := by
  intro fuel
  induction fuel with
  | zero => intro val h0 _ hle; omega
  | succ fuel ih =>
    intro val h0 hdiv hle
    have hmul : p * (val / p) = val := Nat.mul_div_cancel' (Nat.dvd_of_mod_eq_zero hdiv)
    have hq0 : 0 < val / p := by
      rcases Nat.eq_zero_or_pos (val / p) with hz | hpos
      · rw [hz] at hmul; omega
      · exact hpos
    have hqlt : val / p < val := Nat.div_lt_self h0 hp
    by_cases hc : (val / p) % p = 0
    · obtain ⟨h1, h2, h3⟩ := ih (val / p) hq0 hc (by omega)
      simp only [divideOut, hc, if_true]
      refine ⟨by omega, ?_, h3⟩
      calc val = p * (val / p) := hmul.symm
        _ = p * (p ^ (divideOut p fuel (val / p)).1 * (divideOut p fuel (val / p)).2) := by
            rw [← h2]
        _ = p ^ ((divideOut p fuel (val / p)).1 + 1) * (divideOut p fuel (val / p)).2 := by
            rw [pow_succ]; ring
    · simp only [divideOut, hc, if_false]
      exact ⟨le_refl 1, by rw [pow_one, hmul], hc⟩

/-- The bound that `freq` passes to `freqLoop` is never reached: with a stride of at
least 1, a larger bound gives the same counts. -/
theorem freqLoop_fuel (msg : List Int) (msglen sum : Nat) (hs : 1 ≤ sum) :
    ∀ (fuel i : Nat) (occ : List Nat) (len extra : Nat), msglen ≤ i + fuel →
      freqLoop msg msglen sum (fuel + extra) i occ len
        = freqLoop msg msglen sum fuel i occ len := by
  intro fuel
  induction fuel with
  | zero =>
    intro i occ len extra h
    cases extra with
    | zero => rfl
    | succ e =>
      have hn : ¬ i < msglen := by omega
      simp [freqLoop, hn]
  | succ fuel ih =>
    intro i occ len extra h
    have e : fuel + 1 + extra = (fuel + extra) + 1 := by omega
    rw [e]
    simp only [freqLoop]
    by_cases hi : i < msglen
    · rw [if_pos hi, if_pos hi]
      exact ih _ _ _ _ (by omega)
    · rw [if_neg hi, if_neg hi]

theorem isPrime_iff (n : Nat) : isPrime n = true ↔ Nat.Prime n := by
  unfold isPrime
  rw [Nat.prime_def_lt]
  simp only [Bool.and_eq_true, decide_eq_true_eq, List.all_eq_true, List.mem_range,
    Bool.or_eq_true, ne_eq]
  constructor
  · rintro ⟨h2, hall⟩
    refine ⟨h2, ?_⟩
    intro m hm hdvd
    rcases hall m hm with h | h
    · have hm0 : m ≠ 0 := by
        rintro rfl
        have := Nat.eq_zero_of_zero_dvd hdvd
        omega
      omega
    · exact absurd (Nat.mod_eq_zero_of_dvd hdvd) (by simpa using h)
  · rintro ⟨h2, hall⟩
    refine ⟨h2, ?_⟩
    intro d hd
    by_cases hd2 : d < 2
    · exact Or.inl hd2
    · right
      intro hmod
      have := hall d hd (Nat.dvd_of_mod_eq_zero hmod)
      omega

/-- A gap left with no divisor in the rest of the table ends in the error. -/
theorem factoriseFrom_no_divisor (tally : List Factor) (val : Nat) :
    ∀ (ps : List Nat) (i : Nat), (∀ p ∈ ps, val % p ≠ 0) →
      factoriseFrom ps i true tally val = Except.error Fault.bigNumber := by
  intro ps
  induction ps with
  | nil => intro i _; rfl
  | cons p rest ih =>
    intro i h
    have hp := h p (List.mem_cons_self p rest)
    simp only [factoriseFrom, Bool.not_true, Bool.false_and, Bool.false_eq_true, if_false, hp]
    exact ih _ (fun q hq => h q (List.mem_cons_of_mem p hq))

/-- When the last prime of the table divides the gap and what is left after it is
larger than 1, the element past the end of the table is read. -/
theorem factoriseFrom_last_then_past (pl q : Nat) (hpl : 2 ≤ pl) (hq : 1 < q)
    (hqpl : q % pl ≠ 0) :
    ∀ (pre : List Nat) (i : Nat) (searching : Bool) (tally : List Factor),
      (∀ p ∈ pre, (pl * q) % p ≠ 0) →
      factoriseFrom (pre ++ [pl]) i searching tally (pl * q) = Except.error Fault.pastTable := by
  have hval : 1 < pl * q := by nlinarith
  have hnle : ¬ pl * q ≤ 1 := by omega
  have hdiv : pl * q / pl = q := Nat.mul_div_cancel_left q (by omega)
  intro pre
  induction pre with
  | nil =>
    intro i searching tally _
    have hd : divideOut pl (pl * q) (pl * q) = (1, q) := by
      obtain ⟨n, hn⟩ : ∃ n, pl * q = n + 1 := ⟨pl * q - 1, by omega⟩
      rw [hn]
      simp only [divideOut]
      rw [← hn, hdiv, if_neg hqpl]
    simp only [List.nil_append, factoriseFrom, hnle, decide_False, Bool.and_false,
      Bool.false_eq_true, if_false, Nat.mul_mod_right, if_true, hd, hq]
  | cons p rest ih =>
    intro i searching tally h
    have hp := h p (List.mem_cons_self p rest)
    simp only [List.cons_append, factoriseFrom, hnle, decide_False, Bool.and_false,
      Bool.false_eq_true, if_false, hp]
    exact ih _ _ _ (fun r hr => h r (List.mem_cons_of_mem p hr))

theorem mem_primesUpTo (N p : Nat) : p ∈ primesUpTo N ↔ p ≤ N ∧ Nat.Prime p := by
  unfold primesUpTo
  rw [List.mem_filter, List.mem_range, isPrime_iff]
  constructor
  · rintro ⟨h1, h2⟩; exact ⟨by omega, h2⟩
  · rintro ⟨h1, h2⟩; exact ⟨by omega, h2⟩

theorem nodup_primesUpTo (N : Nat) : (primesUpTo N).Nodup :=
  (List.nodup_range (N + 1)).filter _

/-- For every table of the primes up to a bound `N` there is a gap at which
`factorise` reads the element past the end of the table: the product of the last
prime of the table and a prime above `N`. -/
theorem factorise_past_table (N : Nat) (hN : 2 ≤ N) (tally : List Factor) :
    ∃ pl q : Nat, pl ∈ primesUpTo N ∧ Nat.Prime q ∧ N < q ∧
      factorise (primesUpTo N) tally (pl * q) = Except.error Fault.pastTable := by
  have hne : primesUpTo N ≠ [] := by
    intro h
    have h2 : 2 ∈ primesUpTo N := (mem_primesUpTo N 2).mpr ⟨hN, Nat.prime_two⟩
    rw [h] at h2
    cases h2
  obtain ⟨q, hqN, hq⟩ := Nat.exists_infinite_primes (N + 1)
  have hsplit := List.dropLast_append_getLast hne
  have hlast_mem : (primesUpTo N).getLast hne ∈ primesUpTo N := List.getLast_mem hne
  obtain ⟨hplN, hpl⟩ := (mem_primesUpTo N _).mp hlast_mem
  have hnd : ((primesUpTo N).dropLast ++ [(primesUpTo N).getLast hne]).Nodup := by
    rw [hsplit]; exact nodup_primesUpTo N
  refine ⟨(primesUpTo N).getLast hne, q, hlast_mem, hq, by omega, ?_⟩
  have hqpl : q % (primesUpTo N).getLast hne ≠ 0 := by
    intro h
    have := (Nat.prime_dvd_prime_iff_eq hpl hq).mp (Nat.dvd_of_mod_eq_zero h)
    omega
  have hpre : ∀ p ∈ (primesUpTo N).dropLast, ((primesUpTo N).getLast hne * q) % p ≠ 0 := by
    intro p hp hmod
    have hpmem : p ∈ primesUpTo N := List.mem_of_mem_dropLast hp
    obtain ⟨hpN, hpp⟩ := (mem_primesUpTo N p).mp hpmem
    rcases (Nat.Prime.dvd_mul hpp).mp (Nat.dvd_of_mod_eq_zero hmod) with h | h
    · have e := (Nat.prime_dvd_prime_iff_eq hpp hpl).mp h
      have hdis := List.disjoint_of_nodup_append hnd
      exact hdis hp (by rw [e]; exact List.mem_singleton_self _)
    · have e := (Nat.prime_dvd_prime_iff_eq hpp hq).mp h
      omega
  have hv : ¬ ((primesUpTo N).getLast hne * q = 0 ∨ (primesUpTo N).getLast hne * q = 1) := by
    have h2 := hpl.two_le
    have h3 := hq.two_le
    have : 4 ≤ (primesUpTo N).getLast hne * q := by nlinarith
    omega
  unfold factorise
  rw [if_neg hv]
  have key := factoriseFrom_last_then_past ((primesUpTo N).getLast hne) q hpl.two_le
    (by have := hq.two_le; omega) hqpl (primesUpTo N).dropLast 0 false tally hpre
  rw [hsplit] at key
  exact key

end Kasiski

namespace Vigenere

theorem alphaxor_zero (ch : Int) : alphaxor ch 0 = (if isLetter ch then
    (if 65 ≤ ch ∧ ch ≤ 90 then ch - 65 else ch - 97) else -1, ch) := by
  by_cases hu : 65 ≤ ch ∧ ch ≤ 90
  · have hl : isLetter ch := Or.inl hu
    rw [alphaxor_upper ch 0 hu, if_pos hl, if_pos hu]
    have e : (ch - 65 + 0) % 26 = ch - 65 := by omega
    rw [e]
    congr 1
    omega
  · by_cases hl : 97 ≤ ch ∧ ch ≤ 122
    · have hl2 : isLetter ch := Or.inr hl
      rw [alphaxor_lower ch 0 hl, if_pos hl2, if_neg hu]
      have e : (ch - 97 + 0) % 26 = ch - 97 := by omega
      rw [e]
      congr 1
      omega
    · have hn : ¬ isLetter ch := fun h => h.elim hu hl
      rw [alphaxor_other ch 0 hn, if_neg hn]

theorem keyPositions_letterless (key : List Int) (hk : ∀ c ∈ key, ¬ isLetter c) :
    keyPositions key = [] := by
  induction key with
  | nil => rfl
  | cons c rest ih =>
    have hc := hk c (List.mem_cons_self c rest)
    have hr := ih (fun d hd => hk d (List.mem_cons_of_mem c hd))
    simp [keyPositions, alphaxor_other c 0 hc, hr]

/-- Under the key "A" in position form the loop copies its input; the cursor stays
below the key length 1. -/
theorem encryptLoop_trivial (prod : Int) (input : List Int) :
    ∀ i : Nat, encryptLoop [0] prod i input = input := by
  induction input with
  | nil => intro i; rfl
  | cons ch rest ih =>
    intro i
    have hk : prod * ([0] : List Int).getD i 0 = 0 := by
      cases i with
      | zero => simp
      | succ n => simp
    simp only [encryptLoop, hk, alphaxor_zero, ih]

/-- C17. Empty key is the trivial key "A": for a key without any letter (the empty key
included) the first loop of `encrypt` leaves `keylen = 0`, the key becomes the single
position 0, so that the key length by which the cursor is reduced, and below which it
indexes, is 1, and `encrypt` copies every input unchanged when encoding and when
decoding. -/
theorem encrypt_letterless_key (key input : List Int) (hk : ∀ c ∈ key, ¬ isLetter c) :
    keyPositions key = [] ∧ trivialKey (keyPositions key) = [0] ∧
    (trivialKey (keyPositions key)).length = 1 ∧
    encrypt key 1 input = input ∧ encrypt key (-1) input = input := by
  have h0 := keyPositions_letterless key hk
  have h1 : trivialKey (keyPositions key) = [0] := by rw [h0]; rfl
  refine ⟨h0, h1, by rw [h1]; rfl, ?_, ?_⟩
  · unfold encrypt; rw [h1]; exact encryptLoop_trivial 1 input 0
  · unfold encrypt; rw [h1]; exact encryptLoop_trivial (-1) input 0

theorem encrypt_letterless_key_witness :
    (∀ c ∈ str "42!", ¬ isLetter c) ∧
    encrypt (str "42!") 1 (str "Hello, world!") = str "Hello, world!" ∧
    encrypt [] (-1) (str "Hello, world!") = str "Hello, world!" :=
  ⟨by decide, (encrypt_letterless_key (str "42!") (str "Hello, world!") (by decide)).2.2.2.1,
   by decide⟩

end Vigenere

namespace Kasiski

theorem CTOI_letter (c : Int) (h : isalpha c = true) :
    0 ≤ CTOI c ∧ CTOI c < 26 ∧ CTOI c = foldCase c - 97 := by
  have h2 : (65 ≤ c ∧ c ≤ 90) ∨ (97 ≤ c ∧ c ≤ 122) := by simpa [isalpha] using h
  unfold CTOI foldCase
  rcases h2 with hu | hl
  · rw [if_pos hu, if_pos hu]; omega
  · have hn : ¬ (65 ≤ c ∧ c ≤ 90) := by omega
    rw [if_neg hn, if_neg hn]; omega

theorem trigtohash_eq (w : Int × Int × Int) (h1 : isalpha w.1 = true)
    (h2 : isalpha w.2.1 = true) (h3 : isalpha w.2.2 = true) :
    (trigtohash w : Int) = CTOI w.1 * 676 + CTOI w.2.1 * 26 + CTOI w.2.2 := by
  have a := CTOI_letter w.1 h1
  have b := CTOI_letter w.2.1 h2
  have c := CTOI_letter w.2.2 h3
  unfold trigtohash
  omega

/-- C18. Collision-free direct index: for windows of three letters of either case,
`trigtohash` is below `HASHSIZE`, and two windows get the same index exactly when
they hold the same three letters up to case. -/
theorem trigtohash_collision_free (v w : Int × Int × Int)
    (hv : isalpha v.1 = true ∧ isalpha v.2.1 = true ∧ isalpha v.2.2 = true)
    (hw : isalpha w.1 = true ∧ isalpha w.2.1 = true ∧ isalpha w.2.2 = true) :
    trigtohash v < HASHSIZE ∧ trigtohash w < HASHSIZE ∧
    (trigtohash v = trigtohash w ↔
      foldCase v.1 = foldCase w.1 ∧ foldCase v.2.1 = foldCase w.2.1 ∧
      foldCase v.2.2 = foldCase w.2.2) := by
  have ev := trigtohash_eq v hv.1 hv.2.1 hv.2.2
  have ew := trigtohash_eq w hw.1 hw.2.1 hw.2.2
  have a1 := CTOI_letter v.1 hv.1
  have a2 := CTOI_letter v.2.1 hv.2.1
  have a3 := CTOI_letter v.2.2 hv.2.2
  have b1 := CTOI_letter w.1 hw.1
  have b2 := CTOI_letter w.2.1 hw.2.1
  have b3 := CTOI_letter w.2.2 hw.2.2
  have hs : HASHSIZE = 17576 := rfl
  rw [hs]
  refine ⟨by omega, by omega, ?_⟩
  constructor
  · intro h
    have h2 : (trigtohash v : Int) = (trigtohash w : Int) := by rw [h]
    omega
  · intro h
    have h2 : (trigtohash v : Int) = (trigtohash w : Int) := by omega
    exact_mod_cast h2

theorem trigtohash_collision_free_witness :
    trigtohash (84, 104, 69) = trigtohash (116, 72, 101) ∧
    trigtohash (84, 104, 69) ≠ trigtohash (84, 104, 70) ∧
    trigtohash (84, 104, 69) < HASHSIZE :=
  ⟨((trigtohash_collision_free (84, 104, 69) (116, 72, 101) (by decide) (by decide)).2.2).mpr
      (by decide),
   by decide, by decide⟩

end Kasiski

namespace Encode

theorem isalpha_iff_isLetter (c : Int) : isalpha c = true ↔ Vigenere.isLetter c :=
  isalpha_iff c

theorem keyPositions_alpha (key : List Int) (hk : ∀ c ∈ key, isalpha c = true) :
    Vigenere.keyPositions key = key.map pos := by
  induction key with
  | nil => rfl
  | cons c rest ih =>
    have hc : Vigenere.isLetter c := (isalpha_iff_isLetter c).mp (hk c (List.mem_cons_self c rest))
    have hr := ih (fun d hd => hk d (List.mem_cons_of_mem c hd))
    have hne : (if 65 ≤ c ∧ c ≤ 90 then c - 65 else c - 97) ≠ -1 := by
      rcases hc with h | h
      · rw [if_pos h]; omega
      · have hn : ¬ (65 ≤ c ∧ c ≤ 90) := by omega
        rw [if_neg hn]; omega
    simp only [Vigenere.keyPositions, Vigenere.alphaxor_zero, if_pos hc, hr, List.map_cons]
    rw [if_pos hne]
    rfl

/-- The second loop of `encodeVigenere` and the loop of `encrypt` in encode mode write
the same characters, the cursor of the latter being that of the former reduced modulo
the key length. -/
theorem encodeLoop_eq_encryptLoop (key : List Int) (hne : key ≠ [])
    (hk : ∀ c ∈ key, isalpha c = true) (text : List Int) :
    ∀ j : Nat, encodeLoop (key.map toupper) key.length j text
      = some (Vigenere.encryptLoop (key.map pos) 1 (j % key.length) text) := by
  have hL : 0 < key.length := List.length_pos.mpr hne
  have hL0 : key.length ≠ 0 := by omega
  induction text with
  | nil => intro j; rfl
  | cons c rest ih =>
    intro j
    have hlt : j % key.length < key.length := Nat.mod_lt _ hL
    have hkc : isalpha (key.getD (j % key.length) 0) = true := hk _ (getD_mem_of_lt key _ hlt)
    have hsh := toupper_shift _ hkc
    have e1 : (key.map toupper).getD (j % key.length) 0
        = toupper (key.getD (j % key.length) 0) := by
      simp [List.getD_eq_getElem?_getD, List.getElem?_map, List.getElem?_eq_getElem hlt]
    have e2 : (key.map pos).getD (j % key.length) 0 = pos (key.getD (j % key.length) 0) := by
      simp [List.getD_eq_getElem?_getD, List.getElem?_map, List.getElem?_eq_getElem hlt]
    by_cases hc : isalpha c = true
    · have hnext : (j % key.length + 1) % (key.map pos).length = (j + 1) % key.length := by
        rw [List.length_map, Nat.add_mod, Nat.mod_mod, ← Nat.add_mod]
      have hcl := (isalpha_iff c).mp hc
      simp only [encodeLoop, hc, Bool.not_true, Bool.false_eq_true, if_false, hL0, ih (j + 1),
        Option.map_some', Vigenere.encryptLoop, e1, e2, Int.one_mul]
      rcases hcl with hu | hl
      · have hup : isupper c = true := (isupper_iff c).mpr hu
        rw [Vigenere.alphaxor_upper c _ hu]
        have hr : ((c - 65 + pos (key.getD (j % key.length) 0)) % 26 ≠ -1) := by omega
        simp only [hup, if_true, hr, ne_eq, not_false_eq_true, hnext]
        rw [Int.tmod_eq_emod (by omega) (by decide), hsh.2.2, Int.add_comm 65]
      · have hup : isupper c = false := by
          rw [Bool.eq_false_iff, Ne, isupper_iff]; omega
        rw [Vigenere.alphaxor_lower c _ hl]
        have hr : ((c - 97 + pos (key.getD (j % key.length) 0)) % 26 ≠ -1) := by omega
        simp only [hup, Bool.false_eq_true, if_false, hr, ne_eq, not_false_eq_true, if_true,
          hnext]
        rw [Int.tmod_eq_emod (by omega) (by decide), hsh.2.2, Int.add_comm 97]
    · have hc2 : isalpha c = false := by simpa using hc
      have hn : ¬ Vigenere.isLetter c := fun h => hc ((isalpha_iff_isLetter c).mpr h)
      simp only [encodeLoop, hc2, Bool.not_false, if_true, ih j, Option.map_some',
        Vigenere.encryptLoop, Vigenere.alphaxor_other c _ hn, ne_eq, not_true_eq_false,
        if_false]

/-- C19. Two encoders agree: for every ASCII text and every non-empty alphabetic key,
`encodeVigenere` of encode.c returns and leaves in the text what `encrypt` of
vigenere.c writes in encode mode (`prod = 1`) for the same text and key. -/
theorem encoders_agree (text key : List Int)
    (_ht : ∀ c ∈ text, 0 < c ∧ c < 128)
    (hk : key ≠ [] ∧ ∀ c ∈ key, isalpha c = true) :
    (encodeVigenere text key).status = Status.success ∧
    (encodeVigenere text key).text = Vigenere.encrypt key 1 text := by
  have hl := encodeLoop_eq_encryptLoop key hk.1 hk.2 text 0
  have hE : encodeVigenere text key
      = ⟨Status.success, Vigenere.encryptLoop (key.map pos) 1 (0 % key.length) text⟩ := by
    simp [encodeVigenere, checkKey_alpha key hk.2, hl]
  have hkp : Vigenere.trivialKey (Vigenere.keyPositions key) = key.map pos := by
    rw [keyPositions_alpha key hk.2]
    unfold Vigenere.trivialKey
    have : (key.map pos).length ≠ 0 := by
      rw [List.length_map]; exact fun h => hk.1 (List.length_eq_zero.mp h)
    rw [if_neg this]
  rw [hE]
  refine ⟨rfl, ?_⟩
  unfold Vigenere.encrypt
  rw [hkp, Nat.zero_mod]

theorem encoders_agree_witness :
    (∀ c ∈ str "Attack at dawn!", 0 < c ∧ c < 128) ∧
    (str "Lemon" ≠ [] ∧ ∀ c ∈ str "Lemon", isalpha c = true) ∧
    (encodeVigenere (str "Attack at dawn!") (str "Lemon")).text = str "Lxfopv ef rnhr!" ∧
    (encodeVigenere (str "Attack at dawn!") (str "Lemon")).text
      = Vigenere.encrypt (str "Lemon") 1 (str "Attack at dawn!") :=
  ⟨by decide, by decide, by decide,
   (encoders_agree (str "Attack at dawn!") (str "Lemon") (by decide) (by decide)).2⟩

end Encode

namespace Kasiski

theorem calckeylen_eq_mod (tally : List Factor) (nreps : Nat) :
    calckeylen tally nreps = keylenProduct tally nreps % 4294967296 := by
  unfold calckeylen keylenProduct
  rw [calckeylenLoop_eq nreps tally 1 (by decide), Nat.one_mul]

theorem keylenProduct_pos (tally : List Factor) (nreps : Nat)
    (h : ∀ f ∈ tally, 1 ≤ f.val) : 1 ≤ keylenProduct tally nreps := by
  unfold keylenProduct
  induction tally with
  | nil => simp
  | cons f rest ih =>
    have hr := ih (fun g hg => h g (List.mem_cons_of_mem f hg))
    have hf : 1 ≤ f.val ^ (f.nall / f.nrep) := Nat.one_le_pow _ _ (h f (List.mem_cons_self f rest))
    by_cases ha : aboveThreshold f.nrep nreps = true
    · have hfil : (f :: rest).filter (fun f => aboveThreshold f.nrep nreps)
          = f :: rest.filter (fun f => aboveThreshold f.nrep nreps) := by
        simp [List.filter_cons, ha]
      rw [hfil, List.map_cons, List.prod_cons]
      exact Nat.mul_pos hf hr
    · have hfil : (f :: rest).filter (fun f => aboveThreshold f.nrep nreps)
          = rest.filter (fun f => aboveThreshold f.nrep nreps) := by
        simp [List.filter_cons, ha]
      rw [hfil]
      exact hr

/-- C11 (as stated, refuted). For the tally of the single prime 2 with one vote and a
total count of 32 (one distance 2^32) the 32-bit product wraps to 0. -/
theorem calckeylen_wraps_to_zero :
    (∀ f ∈ [(⟨0, 2, 1, 32⟩ : Factor)], Nat.Prime f.val ∧ 1 ≤ f.nrep ∧ f.nrep ≤ f.nall) ∧
    keylenProduct [⟨0, 2, 1, 32⟩] 1 = 4294967296 ∧
    calckeylen [⟨0, 2, 1, 32⟩] 1 = 0 := by
  have hp : keylenProduct [⟨0, 2, 1, 32⟩] 1 = 4294967296 := by
    simp [keylenProduct, aboveThreshold_eq]
  refine ⟨?_, hp, ?_⟩
  · intro f hf
    rw [List.mem_singleton] at hf
    subst hf
    exact ⟨Nat.prime_two, by decide, by decide⟩
  · rw [calckeylen_eq_mod, hp]

/-- C11 (amended). For every tally whose entries have a prime value, `nrep >= 1` and
`nall >= nrep`, and every `nreps`, `calckeylen` returns the product of the prime powers
reduced modulo 2^32; the product itself is at least 1, and the value returned is at
least 1 exactly when the product is no multiple of 2^32, in particular whenever the
product is below 2^32, in which case it is returned unchanged. -/
theorem calckeylen_positive (tally : List Factor) (nreps : Nat)
    (h : ∀ f ∈ tally, Nat.Prime f.val ∧ 1 ≤ f.nrep ∧ f.nrep ≤ f.nall) :
    calckeylen tally nreps = keylenProduct tally nreps % 4294967296 ∧
    1 ≤ keylenProduct tally nreps ∧
    (1 ≤ calckeylen tally nreps ↔ ¬ 4294967296 ∣ keylenProduct tally nreps) ∧
    (keylenProduct tally nreps < 4294967296 →
      calckeylen tally nreps = keylenProduct tally nreps ∧ 1 ≤ calckeylen tally nreps) := by
  have hm := calckeylen_eq_mod tally nreps
  have hp := keylenProduct_pos tally nreps (fun f hf => (h f hf).1.one_lt.le)
  refine ⟨hm, hp, ?_, ?_⟩
  · rw [hm, Nat.dvd_iff_mod_eq_zero]
    omega
  · intro hlt
    rw [hm, Nat.mod_eq_of_lt hlt]
    exact ⟨rfl, hp⟩

theorem calckeylen_positive_witness :
    (∀ f ∈ [(⟨1, 3, 2, 2⟩ : Factor), ⟨0, 2, 2, 5⟩],
      Nat.Prime f.val ∧ 1 ≤ f.nrep ∧ f.nrep ≤ f.nall) ∧
    keylenProduct [⟨1, 3, 2, 2⟩, ⟨0, 2, 2, 5⟩] 3 = 12 ∧
    calckeylen [⟨1, 3, 2, 2⟩, ⟨0, 2, 2, 5⟩] 3 = 12 ∧
    1 ≤ calckeylen [⟨1, 3, 2, 2⟩, ⟨0, 2, 2, 5⟩] 3 := by
  have hh : ∀ f ∈ [(⟨1, 3, 2, 2⟩ : Factor), ⟨0, 2, 2, 5⟩],
      Nat.Prime f.val ∧ 1 ≤ f.nrep ∧ f.nrep ≤ f.nall := by
    intro f hf
    simp only [List.mem_cons, List.mem_singleton, List.not_mem_nil, or_false] at hf
    rcases hf with rfl | rfl
    · exact ⟨Nat.prime_three, by decide, by decide⟩
    · exact ⟨Nat.prime_two, by decide, by decide⟩
  have hp : keylenProduct [⟨1, 3, 2, 2⟩, ⟨0, 2, 2, 5⟩] 3 = 12 := by
    simp [keylenProduct, aboveThreshold_eq]
  have hw := (calckeylen_positive [⟨1, 3, 2, 2⟩, ⟨0, 2, 2, 5⟩] 3 hh).2.2.2
    (by rw [hp]; decide)
  exact ⟨hh, hp, by rw [hw.1, hp], hw.2⟩

/-- C12 (code at the failing input). In the text "BAAAAA" the trigram AAA stands at the
positions 1, 2 and 3, at distances 1 and 1; `calctrigs` records the distances 1 and
then 2, because at the second occurrence `inccount` stores the distance 1, not the
position 2, in `lastpos`. -/
theorem calctrigs_third_occurrence :
    calctrigs (str "BAAAAA")
      = ([⟨(65, 65, 65), [2, 1], 2⟩, ⟨(66, 65, 65), [], 0⟩], 2) := by
  decide

/-- The read of `primes[NPRIMES]` is the one index of the trace that lies outside the
table. -/
theorem readTrace_past_iff (ps : List Nat) :
    ∀ (i : Nat) (searching : Bool) (t : List Factor) (val : Nat),
      (factoriseFrom ps i searching t val = Except.error Fault.pastTable ↔
        (i + ps.length) ∈ readTrace ps i searching val) ∧
      ∀ k ∈ readTrace ps i searching val, i ≤ k ∧ k ≤ i + ps.length := by
  induction ps with
  | nil =>
    intro i searching t val
    cases searching with
    | true => simp [factoriseFrom, readTrace]
    | false =>
      by_cases hv : 1 < val <;> simp [factoriseFrom, readTrace, hv]
  | cons p rest ih =>
    intro i searching t val
    simp only [factoriseFrom, readTrace, List.length_cons]
    by_cases h1 : (!searching && decide (val ≤ 1)) = true
    · rw [if_pos h1, if_pos h1]
      simp
    · rw [if_neg h1, if_neg h1]
      by_cases h2 : val % p = 0
      · rw [if_pos h2, if_pos h2]
        obtain ⟨ha, hb⟩ := ih (i + 1) false (recordFactor t i p (divideOut p val val).1)
          (divideOut p val val).2
        constructor
        · rw [ha, List.mem_cons]
          have e : i + 1 + rest.length = i + (rest.length + 1) := by omega
          rw [e]
          constructor
          · intro h; exact Or.inr h
          · rintro (h | h)
            · omega
            · exact h
        · intro k hk
          rw [List.mem_cons] at hk
          rcases hk with rfl | hk
          · omega
          · have := hb k hk
            omega
      · rw [if_neg h2, if_neg h2]
        obtain ⟨ha, hb⟩ := ih (i + 1) true t val
        constructor
        · rw [ha, List.mem_cons]
          have e : i + 1 + rest.length = i + (rest.length + 1) := by omega
          rw [e]
          constructor
          · intro h; exact Or.inr h
          · rintro (h | h)
            · omega
            · exact h
        · intro k hk
          rw [List.mem_cons] at hk
          rcases hk with rfl | hk
          · omega
          · have := hb k hk
            omega

/-- C20 (code at the failing input). With the prime table ending at 97 (`NPRIMES` = 25,
indices 0 to 24), `factorise` of 9797 = 97 * 101 reads `primes[i]` for every `i` from 0
to 25: the last read uses the index `NPRIMES`.  For 101 alone the reads stop at 24. -/
theorem factorise_read_indices :
    primes97.length = 25 ∧
    readTrace primes97 0 false 9797 = List.range 26 ∧
    25 ∈ readTrace primes97 0 false 9797 ∧
    readTrace primes97 0 false 101 = List.range 25 := by
  decide

end Kasiski

namespace Kasiski

theorem countsOf_cons (f : Factor) (rest : List Factor) (j : Nat) :
    countsOf (f :: rest) j = if f.idx = j then some (f.nrep, f.nall) else countsOf rest j := by
  unfold countsOf
  by_cases h : f.idx = j
  · simp [List.find?_cons, h]
  · have hb : (f.idx == j) = false := by simpa using h
    simp [List.find?_cons, hb, h]

theorem any_idx_iff (tally : List Factor) (i : Nat) :
    tally.any (fun f => f.idx == i) = (countsOf tally i).isSome := by
  induction tally with
  | nil => rfl
  | cons f rest ih =>
    rw [countsOf_cons, List.any_cons, ih]
    by_cases h : f.idx = i
    · simp [h]
    · have hb : (f.idx == i) = false := by simpa using h
      simp [hb, h]

/-- The effect on a node of the update that `recordFactor` applies to the list. -/
theorem countsOf_map_update (i m : Nat) (tally : List Factor) (j : Nat) :
    countsOf (tally.map (fun f =>
        if f.idx == i then { f with nrep := f.nrep + 1, nall := f.nall + m } else f)) j
      = if j = i then (countsOf tally j).map (fun c => (c.1 + 1, c.2 + m))
        else countsOf tally j := by
  induction tally with
  | nil => simp [countsOf]
  | cons f rest ih =>
    rw [List.map_cons, countsOf_cons, countsOf_cons, ih]
    by_cases hfi : f.idx = i
    · have hb : (f.idx == i) = true := by simpa using hfi
      by_cases hj : j = i
      · subst hj
        simp [hb, hfi]
      · have hij : ¬ i = j := fun h => hj h.symm
        simp [hb, hj, hij, hfi]
    · have hb : (f.idx == i) = false := by simpa using hfi
      by_cases hj : j = i
      · have hne : ¬ f.idx = j := by omega
        simp [hb, hj, hfi]
      · by_cases hfj : f.idx = j <;> simp [hb, hj, hfj]

theorem countsOf_recordFactor (tally : List Factor) (i p m j : Nat) :
    countsOf (recordFactor tally i p m) j
      = if j = i then voteFor (countsOf tally i) m else countsOf tally j := by
  unfold recordFactor
  by_cases ha : tally.any (fun f => f.idx == i) = true
  · rw [if_pos ha, countsOf_map_update]
    by_cases hj : j = i
    · subst hj
      rw [if_pos rfl, if_pos rfl]
      rw [any_idx_iff] at ha
      obtain ⟨c, hc⟩ := Option.isSome_iff_exists.mp ha
      simp [hc, voteFor]
    · rw [if_neg hj, if_neg hj]
  · rw [if_neg ha, countsOf_map_update]
    by_cases hj : j = i
    · subst hj
      rw [if_pos rfl, if_pos rfl]
      have hnone : countsOf tally j = none := by
        rw [any_idx_iff] at ha
        simpa using ha
      rw [countsOf_cons]
      simp [hnone, voteFor]
    · rw [if_neg hj, if_neg hj, countsOf_cons]
      have hne : ¬ i = j := fun h => hj h.symm
      simp [hne]

theorem prime_dvd_mul_pow_iff (p q m v : Nat) (hp : Nat.Prime p) (hq : Nat.Prime q)
    (hne : q ≠ p) : q ∣ p ^ m * v ↔ q ∣ v := by
  constructor
  · intro h
    rcases (Nat.Prime.dvd_mul hq).mp h with h1 | h1
    · have := (Nat.prime_dvd_prime_iff_eq hq hp).mp (hq.dvd_of_dvd_pow h1)
      exact absurd this hne
    · exact h1
  · intro h
    exact Dvd.dvd.mul_left h _

theorem factorization_mul_pow_self (p m v : Nat) (hp : Nat.Prime p) (hv : 0 < v)
    (hnd : v % p ≠ 0) : (p ^ m * v).factorization p = m := by
  have hpm : p ^ m ≠ 0 := pow_ne_zero _ hp.ne_zero
  have hv0 : v ≠ 0 := by omega
  have hz : v.factorization p = 0 :=
    Nat.factorization_eq_zero_of_not_dvd (fun h => hnd (Nat.mod_eq_zero_of_dvd h))
  rw [Nat.factorization_mul hpm hv0, Finsupp.add_apply, hz, hp.factorization_pow]
  simp

theorem factorization_mul_pow_other (p q m v : Nat) (hp : Nat.Prime p) (hv : 0 < v)
    (hne : q ≠ p) : (p ^ m * v).factorization q = v.factorization q := by
  have hpm : p ^ m ≠ 0 := pow_ne_zero _ hp.ne_zero
  have hv0 : v ≠ 0 := by omega
  rw [Nat.factorization_mul hpm hv0, Finsupp.add_apply, hp.factorization_pow]
  simp [Finsupp.single_apply, hne.symm]

/-- What a successful run of the loops of `factorise` does to the tally: every prime of
the rest of the table that divides `val` gets one vote and its multiplicity in `val`;
every other node, in the table or not, keeps its counts. -/
theorem factoriseFrom_counts (ps : List Nat) :
    (∀ p ∈ ps, Nat.Prime p) → ps.Nodup →
    ∀ (i : Nat) (searching : Bool) (tally : List Factor) (val : Nat) (t : List Factor),
      0 < val → factoriseFrom ps i searching tally val = Except.ok t →
      (∀ (k p : Nat), ps[k]? = some p →
        countsOf t (i + k) = if p ∣ val then voteFor (countsOf tally (i + k)) (val.factorization p)
          else countsOf tally (i + k)) ∧
      (∀ j : Nat, (j < i ∨ i + ps.length ≤ j) → countsOf t j = countsOf tally j) := by
  induction ps with
  | nil =>
    intro _ _ i searching tally val t _ h
    cases searching with
    | true => simp [factoriseFrom] at h
    | false =>
      by_cases hv : 1 < val
      · simp [factoriseFrom, hv] at h
      · simp only [factoriseFrom, hv, if_false, Bool.false_eq_true, Except.ok.injEq] at h
        subst h
        exact ⟨by intro k p hk; simp at hk, fun _ _ => rfl⟩
  | cons p rest ih =>
    intro hpr hnd i searching tally val t hv0 h
    have hp : Nat.Prime p := hpr p (List.mem_cons_self p rest)
    have hrest : ∀ q ∈ rest, Nat.Prime q := fun q hq => hpr q (List.mem_cons_of_mem p hq)
    obtain ⟨hpn, hnd2⟩ := List.nodup_cons.mp hnd
    simp only [factoriseFrom] at h
    by_cases h1 : (!searching && decide (val ≤ 1)) = true
    · rw [if_pos h1] at h
      simp only [Except.ok.injEq] at h
      subst h
      have hval : val = 1 := by
        simp only [Bool.and_eq_true, decide_eq_true_eq] at h1
        omega
      refine ⟨?_, fun _ _ => rfl⟩
      intro k q hk
      have hq : Nat.Prime q := hpr q (List.getElem?_mem hk)
      have hnd : ¬ q ∣ val := by
        rw [hval]
        intro hd
        have := Nat.le_of_dvd (by decide) hd
        have := hq.two_le
        omega
      rw [if_neg hnd]
    · rw [if_neg h1] at h
      by_cases h2 : val % p = 0
      · rw [if_pos h2] at h
        obtain ⟨hm1, hmul, hndv⟩ := divideOut_spec p hp.two_le val val hv0 h2 (le_refl val)
        have hv' : 0 < (divideOut p val val).2 := by
          rcases Nat.eq_zero_or_pos (divideOut p val val).2 with hz | hpos
          · rw [hz, Nat.mul_zero] at hmul; omega
          · exact hpos
        obtain ⟨ihA, ihB⟩ := ih hrest hnd2 (i + 1) false _ _ t hv' h
        constructor
        · intro k q hk
          cases k with
          | zero =>
            simp only [List.getElem?_cons_zero, Option.some.injEq] at hk
            subst hk
            have hd : p ∣ val := Nat.dvd_of_mod_eq_zero h2
            rw [if_pos hd, Nat.add_zero, ihB i (Or.inl (by omega)), countsOf_recordFactor,
              if_pos rfl]
            have hfac : val.factorization p = (divideOut p val val).1 := by
              conv_lhs => rw [hmul]
              exact factorization_mul_pow_self p _ _ hp hv' hndv
            rw [hfac]
          | succ k =>
            simp only [List.getElem?_cons_succ] at hk
            have hq : Nat.Prime q := hrest q (List.getElem?_mem hk)
            have hqp : q ≠ p := by
              rintro rfl
              exact hpn (List.getElem?_mem hk)
            have e : i + (k + 1) = i + 1 + k := by omega
            rw [e, ihA k q hk, countsOf_recordFactor, if_neg (show ¬ i + 1 + k = i by omega)]
            have hdiv : q ∣ (divideOut p val val).2 ↔ q ∣ val := by
              conv_rhs => rw [hmul]
              exact (prime_dvd_mul_pow_iff p q _ _ hp hq hqp).symm
            have hfac : val.factorization q = (divideOut p val val).2.factorization q := by
              conv_lhs => rw [hmul]
              exact factorization_mul_pow_other p q _ _ hp hv' hqp
            rw [hfac]
            by_cases hd : q ∣ val
            · rw [if_pos hd, if_pos (hdiv.mpr hd)]
            · rw [if_neg hd, if_neg (fun h => hd (hdiv.mp h))]
        · intro j hj
          have hj2 : j < i + 1 ∨ i + 1 + rest.length ≤ j := by
            simp only [List.length_cons] at hj
            omega
          have hji : j ≠ i := by
            simp only [List.length_cons] at hj
            omega
          rw [ihB j hj2, countsOf_recordFactor, if_neg hji]
      · rw [if_neg h2] at h
        obtain ⟨ihA, ihB⟩ := ih hrest hnd2 (i + 1) true tally val t hv0 h
        constructor
        · intro k q hk
          cases k with
          | zero =>
            simp only [List.getElem?_cons_zero, Option.some.injEq] at hk
            subst hk
            have hd : ¬ p ∣ val := fun hd => h2 (Nat.mod_eq_zero_of_dvd hd)
            rw [if_neg hd, Nat.add_zero, ihB i (Or.inl (by omega))]
          | succ k =>
            simp only [List.getElem?_cons_succ] at hk
            have e : i + (k + 1) = i + 1 + k := by omega
            rw [e, ihA k q hk]
        · intro j hj
          have hj2 : j < i + 1 ∨ i + 1 + rest.length ≤ j := by
            simp only [List.length_cons] at hj
            omega
          exact ihB j hj2

/-- The loops of `factorise` end without error when every prime factor of `val` is in
the rest of the table. -/
theorem factoriseFrom_succeeds (ps : List Nat) :
    (∀ p ∈ ps, Nat.Prime p) →
    ∀ (i : Nat) (searching : Bool) (tally : List Factor) (val : Nat),
      0 < val → (∀ q, Nat.Prime q → q ∣ val → q ∈ ps) → (searching = true → 1 < val) →
      ∃ t, factoriseFrom ps i searching tally val = Except.ok t := by
  induction ps with
  | nil =>
    intro _ i searching tally val _ hfac hs
    have hval : val = 1 := by
      by_contra hne
      obtain ⟨q, hq, hd⟩ := Nat.exists_prime_and_dvd hne
      have := hfac q hq hd
      simp at this
    cases searching with
    | true => have := hs rfl; omega
    | false => exact ⟨tally, by simp [factoriseFrom, hval]⟩
  | cons p rest ih =>
    intro hpr i searching tally val hv0 hfac hs
    have hp : Nat.Prime p := hpr p (List.mem_cons_self p rest)
    have hrest : ∀ q ∈ rest, Nat.Prime q := fun q hq => hpr q (List.mem_cons_of_mem p hq)
    simp only [factoriseFrom]
    by_cases h1 : (!searching && decide (val ≤ 1)) = true
    · rw [if_pos h1]
      exact ⟨tally, rfl⟩
    · rw [if_neg h1]
      have hgt : 1 < val := by
        cases searching with
        | true => exact hs rfl
        | false =>
          simp only [Bool.not_false, Bool.true_and, decide_eq_true_eq] at h1
          omega
      by_cases h2 : val % p = 0
      · rw [if_pos h2]
        obtain ⟨_, hmul, hndv⟩ := divideOut_spec p hp.two_le val val hv0 h2 (le_refl val)
        have hv' : 0 < (divideOut p val val).2 := by
          rcases Nat.eq_zero_or_pos (divideOut p val val).2 with hz | hpos
          · rw [hz, Nat.mul_zero] at hmul; omega
          · exact hpos
        apply ih hrest (i + 1) false _ _ hv'
        · intro q hq hd
          have hdv : q ∣ val := by
            rw [hmul]; exact Dvd.dvd.mul_left hd _
          have hmem := hfac q hq hdv
          rw [List.mem_cons] at hmem
          rcases hmem with rfl | hmem
          · exact absurd (Nat.mod_eq_zero_of_dvd hd) hndv
          · exact hmem
        · intro hf; cases hf
      · rw [if_neg h2]
        apply ih hrest (i + 1) true tally val hv0
        · intro q hq hd
          have hmem := hfac q hq hd
          rw [List.mem_cons] at hmem
          rcases hmem with rfl | hmem
          · exact absurd (Nat.mod_eq_zero_of_dvd hd) h2
          · exact hmem
        · intro _; exact hgt

end Kasiski

namespace Kasiski

theorem primesUpTo_prime (N : Nat) : ∀ p ∈ primesUpTo N, Nat.Prime p :=
  fun p hp => ((mem_primesUpTo N p).mp hp).2

/-- C13. Factor tally: for a distance `g > 1` all of whose prime factors are in the
table of the primes up to `N`, one call of `factorise` returns without error; for each
prime `p` of the table that divides `g` the node of `p` exists afterwards, its `nrep`
has grown by exactly 1 and its `nall` by exactly the multiplicity of `p` in `g`; the
node of every prime that does not divide `g` is as before. -/
theorem factorise_tally (N g : Nat) (tally : List Factor) (hg : 1 < g)
    (hfac : ∀ q, Nat.Prime q → q ∣ g → q ≤ N) :
    ∃ t, factorise (primesUpTo N) tally g = Except.ok t ∧
      ∀ (i p : Nat), (primesUpTo N)[i]? = some p →
        (p ∣ g →
          (countsOf t i).isSome = true ∧ nrepOf t i = nrepOf tally i + 1 ∧
          nallOf t i = nallOf tally i + g.factorization p ∧
          p ^ g.factorization p ∣ g ∧ ¬ p ^ (g.factorization p + 1) ∣ g) ∧
        (¬ p ∣ g → countsOf t i = countsOf tally i) := by
  have hg0 : 0 < g := by omega
  have hne : ¬ (g = 0 ∨ g = 1) := by omega
  obtain ⟨t, ht⟩ := factoriseFrom_succeeds (primesUpTo N) (primesUpTo_prime N) 0 false tally g
    hg0 (fun q hq hd => (mem_primesUpTo N q).mpr ⟨hfac q hq hd, hq⟩) (fun h => by cases h)
  refine ⟨t, by unfold factorise; rw [if_neg hne]; exact ht, ?_⟩
  obtain ⟨hA, _⟩ := factoriseFrom_counts (primesUpTo N) (primesUpTo_prime N)
    (nodup_primesUpTo N) 0 false tally g t hg0 ht
  intro i p hi
  have hp : Nat.Prime p := primesUpTo_prime N p (List.getElem?_mem hi)
  have hc := hA i p hi
  rw [Nat.zero_add] at hc
  constructor
  · intro hd
    rw [if_pos hd] at hc
    refine ⟨by rw [hc]; rfl, by unfold nrepOf; rw [hc]; rfl, by unfold nallOf; rw [hc]; rfl,
      ?_, ?_⟩
    · exact (hp.pow_dvd_iff_le_factorization (by omega)).mpr (le_refl _)
    · intro h
      have := (hp.pow_dvd_iff_le_factorization (by omega)).mp h
      omega
  · intro hd
    rw [if_neg hd] at hc
    exact hc

theorem factorise_tally_witness :
    1 < 12 ∧ (∀ q, Nat.Prime q → q ∣ 12 → q ≤ 97) ∧
    factorise (primesUpTo 97) [⟨0, 2, 1, 1⟩] 12 = Except.ok [⟨1, 3, 1, 1⟩, ⟨0, 2, 2, 3⟩] ∧
    ∃ t, factorise (primesUpTo 97) [⟨0, 2, 1, 1⟩] 12 = Except.ok t ∧
      ∀ (i p : Nat), (primesUpTo 97)[i]? = some p →
        (p ∣ 12 →
          (countsOf t i).isSome = true ∧ nrepOf t i = nrepOf [⟨0, 2, 1, 1⟩] i + 1 ∧
          nallOf t i = nallOf [⟨0, 2, 1, 1⟩] i + (12 : Nat).factorization p ∧
          p ^ (12 : Nat).factorization p ∣ 12 ∧ ¬ p ^ ((12 : Nat).factorization p + 1) ∣ 12) ∧
        (¬ p ∣ 12 → countsOf t i = countsOf [⟨0, 2, 1, 1⟩] i) :=
  have h : ∀ q, Nat.Prime q → q ∣ 12 → q ≤ 97 := fun q _ hd => by
    have := Nat.le_of_dvd (by decide) hd
    omega
  ⟨by decide, h, by decide, factorise_tally 97 12 [⟨0, 2, 1, 1⟩] (by decide) h⟩

/-- One call of `factorise` on a positive distance gives one vote to every prime of
the table that divides it, and to no other. -/
theorem factorise_nrep (ps : List Nat) (hpr : ∀ p ∈ ps, Nat.Prime p) (hnd : ps.Nodup)
    (tally t : List Factor) (g : Nat) (hg : 0 < g)
    (h : factorise ps tally g = Except.ok t) (k p : Nat) (hk : ps[k]? = some p) :
    nrepOf t k = nrepOf tally k + (if p ∣ g then 1 else 0) := by
  have hp : Nat.Prime p := hpr p (List.getElem?_mem hk)
  unfold factorise at h
  by_cases h1 : g = 0 ∨ g = 1
  · rw [if_pos h1] at h
    simp only [Except.ok.injEq] at h
    subst h
    have hg1 : g = 1 := by omega
    have hnd : ¬ p ∣ g := by
      rw [hg1]
      intro hd
      have := Nat.le_of_dvd (by decide) hd
      have := hp.two_le
      omega
    rw [if_neg hnd, Nat.add_zero]
  · rw [if_neg h1] at h
    obtain ⟨hA, _⟩ := factoriseFrom_counts ps hpr hnd 0 false tally g t hg h
    have hc := hA k p hk
    rw [Nat.zero_add] at hc
    unfold nrepOf
    rw [hc]
    by_cases hd : p ∣ g
    · rw [if_pos hd, if_pos hd]; rfl
    · rw [if_neg hd, if_neg hd]; rfl

theorem factoriseAll_nrep (ps : List Nat) (hpr : ∀ p ∈ ps, Nat.Prime p) (hnd : ps.Nodup)
    (k p : Nat) (hk : ps[k]? = some p) (gaps : List Nat) :
    (∀ g ∈ gaps, 0 < g) → ∀ (tally t : List Factor),
      factoriseAll ps gaps tally = Except.ok t →
      nrepOf t k = nrepOf tally k + gaps.countP (fun g => decide (p ∣ g)) := by
  induction gaps with
  | nil =>
    intro _ tally t h
    simp only [factoriseAll, Except.ok.injEq] at h
    subst h
    simp
  | cons g rest ih =>
    intro hpos tally t h
    simp only [factoriseAll] at h
    cases hf : factorise ps tally g with
    | error e => rw [hf] at h; cases h
    | ok t1 =>
      rw [hf] at h
      have h1 := factorise_nrep ps hpr hnd tally t1 g (hpos g (List.mem_cons_self g rest)) hf
        k p hk
      have h2 := ih (fun x hx => hpos x (List.mem_cons_of_mem g hx)) t1 t h
      rw [h2, h1, List.countP_cons]
      by_cases hd : p ∣ g
      · simp [hd]; omega
      · simp [hd]

theorem calcfactorsLoop_nrep (ps : List Nat) (hpr : ∀ p ∈ ps, Nat.Prime p) (hnd : ps.Nodup)
    (k p : Nat) (hk : ps[k]? = some p) (trigs : List Trigram) :
    (∀ tr ∈ trigs, ∀ g ∈ tr.rep, 0 < g) → ∀ (tally t : List Factor),
      calcfactorsLoop ps trigs tally = Except.ok t →
      nrepOf t k = nrepOf tally k +
        (trigs.flatMap (fun tr => tr.rep)).countP (fun g => decide (p ∣ g)) := by
  induction trigs with
  | nil =>
    intro _ tally t h
    simp only [calcfactorsLoop, Except.ok.injEq] at h
    subst h
    simp
  | cons tr rest ih =>
    intro hpos tally t h
    simp only [calcfactorsLoop] at h
    cases hf : factoriseAll ps tr.rep tally with
    | error e => rw [hf] at h; cases h
    | ok t1 =>
      rw [hf] at h
      have h1 := factoriseAll_nrep ps hpr hnd k p hk tr.rep
        (hpos tr (List.mem_cons_self tr rest)) tally t1 hf
      have h2 := ih (fun x hx => hpos x (List.mem_cons_of_mem tr hx)) t1 t h
      rw [h2, h1, List.flatMap_cons, List.countP_append]
      omega

theorem sum_lengths_update (key : Trigram → Nat) (h : Nat) (u : Trigram → Trigram)
    (hu : ∀ t, (u t).rep.length = t.rep.length + 1) (l : List Trigram) :
    (l.map key).Nodup → l.any (fun t => key t == h) = true →
    ((l.map (fun t => if key t == h then u t else t)).map (fun t => t.rep.length)).sum
      = (l.map (fun t => t.rep.length)).sum + 1 := by
  induction l with
  | nil => intro _ ha; simp at ha
  | cons t rest ih =>
    intro hnd ha
    rw [List.map_cons, List.nodup_cons] at hnd
    obtain ⟨hnot, hnd2⟩ := hnd
    by_cases ht : key t = h
    · have hb : (key t == h) = true := by rw [beq_iff_eq]; exact ht
      have hfix : ∀ x ∈ rest, (if key x == h then u x else x) = id x := by
        intro x hx
        have hxh : ¬ key x = h := by
          intro hxh
          apply hnot
          rw [ht, ← hxh]
          exact List.mem_map_of_mem key hx
        have hxb : ¬ (key x == h) = true := by rw [beq_iff_eq]; exact hxh
        rw [if_neg hxb]
        rfl
      have hrest : rest.map (fun t => if key t == h then u t else t) = rest :=
        (List.map_congr_left hfix).trans (List.map_id rest)
      rw [List.map_cons, hrest, if_pos hb, List.map_cons, List.map_cons, List.sum_cons,
        List.sum_cons, hu t]
      omega
    · have hb : ¬ (key t == h) = true := by rw [beq_iff_eq]; exact ht
      have ha2 : rest.any (fun t => key t == h) = true := by
        rw [List.any_cons, Bool.or_eq_true] at ha
        rcases ha with ha | ha
        · exact absurd ha hb
        · exact ha
      have := ih hnd2 ha2
      rw [List.map_cons, if_neg hb, List.map_cons, List.map_cons, List.sum_cons,
        List.sum_cons, this]
      omega

theorem TrigInv_mono (i : Nat) (st : List Trigram × Nat) (h : TrigInv i st) :
    TrigInv (i + 1) st := by
  obtain ⟨h1, h2, h3⟩ := h
  refine ⟨fun t ht => ⟨?_, (h1 t ht).2⟩, h2, h3⟩
  have := (h1 t ht).1
  omega

theorem map_key_update (key : Trigram → Nat) (h : Nat) (u : Trigram → Trigram)
    (hu : ∀ t, key (u t) = key t) (l : List Trigram) :
    (l.map (fun t => if key t == h then u t else t)).map key = l.map key := by
  induction l with
  | nil => rfl
  | cons t rest ih =>
    rw [List.map_cons, List.map_cons, List.map_cons, ih]
    by_cases hb : (key t == h) = true
    · rw [if_pos hb, hu t]
    · rw [if_neg hb]

/-- The step `inccount` keeps the state of `calctrigs` well formed. -/
theorem inccount_inv (i : Nat) (st : List Trigram × Nat) (trig : Int × Int × Int)
    (h : TrigInv i st) : TrigInv (i + 1) (inccount st.1 st.2 trig i) := by
  obtain ⟨h1, h2, h3⟩ := h
  unfold inccount
  by_cases ha : st.1.any (fun t => trigtohash t.trig == trigtohash trig) = true
  · rw [if_pos ha]
    unfold TrigInv
    dsimp only
    refine ⟨?_, ?_, ?_⟩
    · intro t ht
      rw [List.mem_map] at ht
      obtain ⟨u, hu, rfl⟩ := ht
      have hu1 := h1 u hu
      by_cases hm : (trigtohash u.trig == trigtohash trig) = true
      · rw [if_pos hm]
        dsimp only
        refine ⟨by omega, ?_⟩
        intro g hg
        rw [List.mem_cons] at hg
        rcases hg with rfl | hg
        · have := hu1.1; omega
        · exact hu1.2 g hg
      · rw [if_neg hm]
        exact ⟨Nat.lt_succ_of_lt hu1.1, hu1.2⟩
    · rw [map_key_update (fun t => trigtohash t.trig) (trigtohash trig)
        (fun t => { t with rep := (i - t.lastpos) :: t.rep, lastpos := i - t.lastpos })
        (fun _ => rfl) st.1]
      exact h2
    · rw [sum_lengths_update (fun t => trigtohash t.trig) (trigtohash trig)
        (fun t => { t with rep := (i - t.lastpos) :: t.rep, lastpos := i - t.lastpos })
        (fun _ => rfl) st.1 h2 ha, h3]
  · rw [if_neg ha]
    unfold TrigInv
    dsimp only
    refine ⟨?_, ?_, ?_⟩
    · intro t ht
      rw [List.mem_cons] at ht
      rcases ht with rfl | ht
      · exact ⟨Nat.lt_succ_self i, fun g hg => by cases hg⟩
      · exact ⟨Nat.lt_succ_of_lt (h1 t ht).1, (h1 t ht).2⟩
    · rw [List.map_cons, List.nodup_cons]
      refine ⟨?_, h2⟩
      intro hmem
      apply ha
      rw [List.any_eq_true]
      obtain ⟨u, hu, hh⟩ := List.mem_map.mp hmem
      exact ⟨u, hu, by rw [beq_iff_eq]; exact hh⟩
    · rw [List.map_cons, List.sum_cons]
      show 0 + _ = _
      rw [Nat.zero_add]
      exact h3

theorem calctrigsLoop_inv (msg : List Int) :
    ∀ (i : Nat) (st : List Trigram × Nat), TrigInv i st →
      TrigInv (i + msg.length) (calctrigsLoop i msg st) := by
  induction msg with
  | nil => intro i st h; exact h
  | cons c0 rest ih =>
    intro i st h
    have e : i + (c0 :: rest).length = i + 1 + rest.length := by
      simp only [List.length_cons]; omega
    rw [e]
    rcases rest with _ | ⟨c1, _ | ⟨c2, r2⟩⟩
    · exact ih (i + 1) st (TrigInv_mono i st h)
    · exact ih (i + 1) st (TrigInv_mono i st h)
    · exact ih (i + 1) _ (inccount_inv i st (c0, c1, c2) h)

theorem calctrigs_inv (msg : List Int) : TrigInv msg.length (calctrigs msg) := by
  have h0 : TrigInv 0 (([] : List Trigram), 0) :=
    ⟨fun t ht => (by cases ht), List.nodup_nil, rfl⟩
  have := calctrigsLoop_inv msg 0 ([], 0) h0
  rw [Nat.zero_add] at this
  exact this

theorem length_flatMap_rep (l : List Trigram) :
    (l.flatMap (fun t => t.rep)).length = (l.map (fun t => t.rep.length)).sum := by
  induction l with
  | nil => rfl
  | cons t rest ih => simp [List.flatMap_cons, ih]

/-- C14 (as stated, refuted). In "ABABABA" the trigram ABA recurs twice and BAB once,
each time at distance 2: two trigram entries have a repetition, and the vote count of
the prime 2 is 3. -/
theorem vote_count_exceeds_trigram_count :
    (calctrigs (str "ABABABA")).1.map (fun t => t.rep) = [[2], [2, 2]] ∧
    ((calctrigs (str "ABABABA")).1.filter (fun t => decide (t.rep ≠ []))).length = 2 ∧
    calcfactors primes97 (calctrigs (str "ABABABA")).1 = Except.ok [⟨0, 2, 3, 3⟩] ∧
    nrepOf [⟨0, 2, 3, 3⟩] 0 = 3 := by
  decide

/-- C14 (amended). In the tally that `calcfactors` builds from the output of
`calctrigs`, the vote count `nrep` of each prime of the table equals the number of
recorded distances, counted over all trigram entries and with a trigram that recurs
several times counted once for each of its distances, that the prime divides; it is
therefore at most `nreps`, the total number of recorded distances. -/
theorem vote_count_counts_distances (msg : List Int) (N : Nat) (tally : List Factor)
    (h : calcfactors (primesUpTo N) (calctrigs msg).1 = Except.ok tally) :
    ((calctrigs msg).1.flatMap (fun t => t.rep)).length = (calctrigs msg).2 ∧
    ∀ (i p : Nat), (primesUpTo N)[i]? = some p →
      nrepOf tally i
        = ((calctrigs msg).1.flatMap (fun t => t.rep)).countP (fun g => decide (p ∣ g)) ∧
      nrepOf tally i ≤ (calctrigs msg).2 := by
  obtain ⟨h1, _, h3⟩ := calctrigs_inv msg
  have hlen : ((calctrigs msg).1.flatMap (fun t => t.rep)).length = (calctrigs msg).2 := by
    rw [length_flatMap_rep, h3]
  refine ⟨hlen, ?_⟩
  intro i p hi
  have hc := calcfactorsLoop_nrep (primesUpTo N) (primesUpTo_prime N) (nodup_primesUpTo N)
    i p hi (calctrigs msg).1 (fun tr htr => (h1 tr htr).2) [] tally h
  have h0 : nrepOf [] i = 0 := rfl
  rw [h0, Nat.zero_add] at hc
  refine ⟨hc, ?_⟩
  rw [hc, ← hlen]
  exact List.countP_le_length _

theorem vote_count_counts_distances_witness :
    calcfactors (primesUpTo 97) (calctrigs (str "ABABABA")).1 = Except.ok [⟨0, 2, 3, 3⟩] ∧
    (calctrigs (str "ABABABA")).2 = 3 ∧
    ∀ (i p : Nat), (primesUpTo 97)[i]? = some p →
      nrepOf [⟨0, 2, 3, 3⟩] i
        = ((calctrigs (str "ABABABA")).1.flatMap (fun t => t.rep)).countP
            (fun g => decide (p ∣ g)) ∧
      nrepOf [⟨0, 2, 3, 3⟩] i ≤ (calctrigs (str "ABABABA")).2 :=
  ⟨by decide, by decide,
   (vote_count_counts_distances (str "ABABABA") 97 [⟨0, 2, 3, 3⟩] (by decide)).2⟩

end Kasiski

namespace Kasiski

theorem SameIgnoringCase.ctoi {a b : Int} (h : SameIgnoringCase a b) : CTOI a = CTOI b := by
  have ha := CTOI_letter a h.1
  have hb := CTOI_letter b h.2.1
  have hf := h.2.2
  omega

theorem trigtohash_congr (a b c x y z : Int) (h1 : CTOI a = CTOI x)
    (h2 : CTOI b = CTOI y) (h3 : CTOI c = CTOI z) :
    trigtohash (a, b, c) = trigtohash (x, y, z) := by
  unfold trigtohash
  dsimp only
  rw [h1, h2, h3]

theorem any_key_shape (key : Trigram → Nat) (h : Nat) (l : List Trigram) :
    (l.map (fun t => (key t, t.rep, t.lastpos))).any (fun s => s.1 == h)
      = l.any (fun t => key t == h) := by
  induction l with
  | nil => rfl
  | cons t rest ih => rw [List.map_cons, List.any_cons, List.any_cons, ih]

theorem map_key_shape_update (key : Trigram → Nat) (h n : Nat)
    (hkey : ∀ (t : Trigram) (r : List Nat) (lp : Nat),
      key { t with rep := r, lastpos := lp } = key t) (l : List Trigram) :
    (l.map (fun t => if key t == h then
        ({ t with rep := (n - t.lastpos) :: t.rep, lastpos := n - t.lastpos } : Trigram)
        else t)).map (fun t => (key t, t.rep, t.lastpos))
      = (l.map (fun t => (key t, t.rep, t.lastpos))).map
          (fun s => if s.1 == h then (s.1, (n - s.2.2) :: s.2.1, n - s.2.2) else s) := by
  induction l with
  | nil => rfl
  | cons t rest ih =>
    rw [List.map_cons, List.map_cons, List.map_cons, List.map_cons, ih]
    by_cases hm : (key t == h) = true
    · rw [if_pos hm, if_pos hm, hkey]
    · rw [if_neg hm, if_neg hm]

theorem shape_inccount (l : List Trigram) (nreps : Nat) (trig : Int × Int × Int) (n : Nat) :
    (inccount l nreps trig n).1.map shape = shapeStep (l.map shape) (trigtohash trig) n ∧
    (inccount l nreps trig n).2
      = if (l.map shape).any (fun s => s.1 == trigtohash trig) then nreps + 1 else nreps := by
  have hshape : shape = fun t => ((fun t => trigtohash t.trig) t, t.rep, t.lastpos) := rfl
  have hany := any_key_shape (fun t => trigtohash t.trig) (trigtohash trig) l
  have hmap := map_key_shape_update (fun t => trigtohash t.trig) (trigtohash trig) n
    (fun _ _ _ => rfl) l
  rw [← hshape] at hany hmap
  unfold inccount shapeStep
  rw [hany]
  by_cases ha : l.any (fun t => trigtohash t.trig == trigtohash trig) = true
  · rw [if_pos ha, if_pos ha, if_pos ha]
    exact ⟨hmap, rfl⟩
  · rw [if_neg ha, if_neg ha, if_neg ha]
    exact ⟨rfl, rfl⟩

/-- The loop of `calctrigs` on two texts that differ in case only goes through states
of the same shapes. -/
theorem calctrigsLoop_case (m1 m2 : List Int) (h : List.Forall₂ SameIgnoringCase m1 m2) :
    ∀ (i : Nat) (st1 st2 : List Trigram × Nat),
      st1.1.map shape = st2.1.map shape → st1.2 = st2.2 →
      (calctrigsLoop i m1 st1).1.map shape = (calctrigsLoop i m2 st2).1.map shape ∧
      (calctrigsLoop i m1 st1).2 = (calctrigsLoop i m2 st2).2 := by
  induction h with
  | nil => intro i st1 st2 h1 h2; exact ⟨h1, h2⟩
  | cons hab hl ih =>
    intro i st1 st2 h1 h2
    cases hl with
    | nil => exact ih (i + 1) st1 st2 h1 h2
    | cons hab2 hl2 =>
      cases hl2 with
      | nil => exact ih (i + 1) st1 st2 h1 h2
      | cons hab3 hl3 =>
        simp only [calctrigsLoop]
        apply ih (i + 1)
        · rw [(shape_inccount _ _ _ _).1, (shape_inccount _ _ _ _).1, h1,
            trigtohash_congr _ _ _ _ _ _ hab.ctoi hab2.ctoi hab3.ctoi]
        · rw [(shape_inccount _ _ _ _).2, (shape_inccount _ _ _ _).2, h1, h2,
            trigtohash_congr _ _ _ _ _ _ hab.ctoi hab2.ctoi hab3.ctoi]

theorem calcfactorsLoop_congr (ps : List Nat) (l1 : List Trigram) :
    ∀ (l2 : List Trigram) (tally : List Factor),
      l1.map (fun t => t.rep) = l2.map (fun t => t.rep) →
      calcfactorsLoop ps l1 tally = calcfactorsLoop ps l2 tally := by
  induction l1 with
  | nil =>
    intro l2 tally h
    cases l2 with
    | nil => rfl
    | cons t rest => simp at h
  | cons t1 r1 ih =>
    intro l2 tally h
    cases l2 with
    | nil => simp at h
    | cons t2 r2 =>
      rw [List.map_cons, List.map_cons, List.cons.injEq] at h
      simp only [calcfactorsLoop]
      rw [h.1]
      cases factoriseAll ps t2.rep tally with
      | error e => rfl
      | ok t => exact ih r2 t h.2

theorem getD_case (m1 m2 : List Int) (h : List.Forall₂ SameIgnoringCase m1 m2) :
    ∀ p : Nat, CTOI (m1.getD p 0) = CTOI (m2.getD p 0) := by
  induction h with
  | nil => intro p; rfl
  | cons hab _ ih =>
    intro p
    cases p with
    | zero => exact hab.ctoi
    | succ p => exact ih p

theorem freqLoop_congr (m1 m2 : List Int) (msglen sum : Nat)
    (h : ∀ p : Nat, CTOI (m1.getD p 0) = CTOI (m2.getD p 0)) :
    ∀ (fuel i : Nat) (occ : List Nat) (len : Nat),
      freqLoop m1 msglen sum fuel i occ len = freqLoop m2 msglen sum fuel i occ len := by
  intro fuel
  induction fuel with
  | zero => intro i occ len; rfl
  | succ fuel ih =>
    intro i occ len
    simp only [freqLoop]
    rw [h i, ih]

theorem readLoop_letters (msg : List Int) (hm : ∀ c ∈ msg, isalpha c = true) :
    ∀ n : Nat, readLoop n false msg = msg := by
  induction msg with
  | nil => intro n; rfl
  | cons b rest ih =>
    intro n
    have hb : isalpha b = true := hm b (List.mem_cons_self b rest)
    have hb2 : (65 ≤ b ∧ b ≤ 90) ∨ (97 ≤ b ∧ b ≤ 122) := by simpa [isalpha] using hb
    have h0 : ¬ b = 0 := by omega
    have h10 : ¬ b = 10 := by omega
    have hr := ih (fun c hc => hm c (List.mem_cons_of_mem b hc))
    simp only [readLoop, ite_self, h0, decide_False, Bool.or_false, Bool.not_false,
      Bool.true_and, hb, if_true, h10, if_false, hr]

theorem forall2_letters (m1 m2 : List Int) (h : List.Forall₂ SameIgnoringCase m1 m2) :
    (∀ c ∈ m1, isalpha c = true) ∧ (∀ c ∈ m2, isalpha c = true) := by
  induction h with
  | nil => exact ⟨fun c hc => (by cases hc), fun c hc => (by cases hc)⟩
  | cons hab _ ih =>
    constructor
    · intro c hc
      rw [List.mem_cons] at hc
      rcases hc with rfl | hc
      · exact hab.1
      · exact ih.1 c hc
    · intro c hc
      rw [List.mem_cons] at hc
      rcases hc with rfl | hc
      · exact hab.2.1
      · exact ih.2 c hc

theorem readstdin_letters (msg : List Int) (hm : ∀ c ∈ msg, isalpha c = true)
    (hne : msg ≠ []) : readstdin msg = Except.ok msg := by
  cases msg with
  | nil => exact absurd rfl hne
  | cons b rest => rw [readstdin_nonempty, readLoop_letters _ hm]

/-- C16. Case-insensitive analysis: for two texts of letters of equal length that
differ only in the case of some letters, `calctrigs` yields the same repeat count and
the same distances for every trigram entry, `calcfactors` the same tally and
`calckeylen` the same key length, `guesskey` the same key, and so does the whole run. -/
theorem analysis_ignores_case (m1 m2 : List Int)
    (h : List.Forall₂ SameIgnoringCase m1 m2) :
    (calctrigs m1).2 = (calctrigs m2).2 ∧
    (calctrigs m1).1.map (fun t => t.rep) = (calctrigs m2).1.map (fun t => t.rep) ∧
    (∀ ps : List Nat, calcfactors ps (calctrigs m1).1 = calcfactors ps (calctrigs m2).1) ∧
    (∀ tally : List Factor,
      calckeylen tally (calctrigs m1).2 = calckeylen tally (calctrigs m2).2) ∧
    (∀ (L : Nat) (lf : List ℚ), guesskey m1 L lf = guesskey m2 L lf) ∧
    (∀ (lf : List ℚ) (ps : List Nat), main lf ps m1 = main lf ps m2) := by
  obtain ⟨hs, hn⟩ := calctrigsLoop_case m1 m2 h 0 ([], 0) ([], 0) rfl rfl
  have hs2 : (calctrigs m1).1.map shape = (calctrigs m2).1.map shape := hs
  have hn2 : (calctrigs m1).2 = (calctrigs m2).2 := hn
  have hrep : (calctrigs m1).1.map (fun t => t.rep) = (calctrigs m2).1.map (fun t => t.rep) := by
    have e : ∀ l : List Trigram, l.map (fun t => t.rep) = (l.map shape).map (fun s => s.2.1) := by
      intro l
      rw [List.map_map]
      rfl
    rw [e, e, hs2]
  have hcf : ∀ ps : List Nat,
      calcfactors ps (calctrigs m1).1 = calcfactors ps (calctrigs m2).1 :=
    fun ps => calcfactorsLoop_congr ps _ _ [] hrep
  have hlen : m1.length = m2.length := h.length_eq
  have hgk : ∀ (L : Nat) (lf : List ℚ), guesskey m1 L lf = guesskey m2 L lf := by
    intro L lf
    unfold guesskey freq
    rw [hlen]
    simp only [freqLoop_congr m1 m2 _ _ (getD_case m1 m2 h)]
  refine ⟨hn2, hrep, hcf, fun tally => by rw [hn2], hgk, ?_⟩
  intro lf ps
  cases h with
  | nil => rfl
  | cons hab hl =>
    have hh := List.Forall₂.cons hab hl
    obtain ⟨hl1, hl2⟩ := forall2_letters _ _ hh
    unfold main
    rw [readstdin_letters _ hl1 (List.cons_ne_nil _ _),
      readstdin_letters _ hl2 (List.cons_ne_nil _ _)]
    dsimp only
    rw [hcf ps, hn2]
    cases calcfactors ps (calctrigs _).1 with
    | error e => rfl
    | ok factors => exact hgk _ lf

theorem analysis_ignores_case_witness :
    List.Forall₂ SameIgnoringCase (str "abABab") (str "ABabAB") ∧
    (calctrigs (str "abABab")).1.map (fun t => t.rep) = [[2], [2]] ∧
    (calctrigs (str "abABab")).1.map (fun t => t.rep)
      = (calctrigs (str "ABabAB")).1.map (fun t => t.rep) ∧
    ∀ (lf : List ℚ) (ps : List Nat), main lf ps (str "abABab") = main lf ps (str "ABabAB") :=
  have h : List.Forall₂ SameIgnoringCase (str "abABab") (str "ABabAB") :=
    List.Forall₂.cons (by decide) (List.Forall₂.cons (by decide) (List.Forall₂.cons (by decide)
      (List.Forall₂.cons (by decide) (List.Forall₂.cons (by decide)
        (List.Forall₂.cons (by decide) List.Forall₂.nil)))))
  ⟨h, by decide, (analysis_ignores_case _ _ h).2.1, (analysis_ignores_case _ _ h).2.2.2.2.2⟩

end Kasiski

namespace Kasiski

end Kasiski

namespace Kasiski

end Kasiski

namespace Kasiski

end Kasiski
